import Mathlib

/-!
# A shallow embedding of `Vector<T>` (src/Vector.h)

The container of `src/Vector.h` is a record of four members: the storage pointer `values`,
the element count `v_size`, the slot count `v_capacity` and the growth flag
`ctor_initialized`.  The embedding keeps the four members under their own names.

Modelling conventions.

* A storage block is a list of slots; its length is the number of slots that were allocated.
  A slot is `none` while nothing has been stored in it (raw memory obtained from
  `::operator new`, or the fresh cells of `new T[n]`) and `some x` once `x` was stored.
* `values` is `none` for `nullptr` and `some block` otherwise.  Each `Vector` value carries the
  block it owns: every allocation in the source yields a block of its own, which is what
  carrying it by value expresses.
* An access outside the allocated block is undefined behaviour in C++.  Every operation that
  touches storage therefore returns an `Option`; `none` stands for undefined behaviour.
* `std::size_t` is modelled by `Nat`: allocation is assumed to succeed, and no count comes near
  `2 ^ 64`.  A position `pos` is modelled by its offset `pos - begin()`, a natural number.
* The algorithms `std::copy`, `std::fill`, `std::move`, `std::move_backward` and `std::equal`
  are modelled by their element-wise loops; a move is a copy whose source slot keeps its
  value.
* Values returned as iterators or references are not part of the state and are not modelled.
  A function that is declared to return a value and reaches its closing brace without a
  `return` is undefined behaviour; the model ends such a call with `flow_off_end`.
* A member read before it is initialised has no determined value.  The constructors that do
  so take that value as their first argument, `indeterminate`.
* The move constructor (src/Vector.h:157-161), `operator=` (src/Vector.h:149-155) and the
  free `swap` (src/Vector.h:616-624) have no instantiation: inside a member the call
  `swap(*this, x)` names the one-argument member `swap`, and the free template is not the
  friend declared at line 100.  They have no definition here; the member `swap` has.
-/

namespace StlVector

/-- A slot of a storage block: `none` is a slot nothing has been stored in. -/
abbrev Slot (T : Type) := Option T

/-- The four data members of `class Vector` (src/Vector.h:13-16). -/
structure Vector (T : Type) where
  values : Option (List (Slot T))
  v_size : Nat
  v_capacity : Nat
  ctor_initialized : Bool
deriving DecidableEq

/-- What the checked accessor throws, and the marker for an access outside the block. -/
inductive Fault where
  | out_of_range (n : Nat) (size : Nat)
  | undefined_behaviour
deriving DecidableEq

variable {T : Type}

/-! ## Storage primitives -/

/-- The slots reachable through `values`; a null pointer reaches none. -/
def Vector.cells (v : Vector T) : List (Slot T) := v.values.getD []

/-- The element sequence `[begin(), end())`: the first `v_size` slots. -/
def Vector.elems (v : Vector T) : List (Slot T) := v.cells.take v.v_size

/-- The assignment `block[i] = x`; outside the block it is undefined. -/
def store {α : Type} (b : List α) (i : Nat) (x : α) : Option (List α) :=
  if i < b.length then some (b.set i x) else none

/-- Control reaching the closing brace of a function that is declared to return a value,
after the statements that left the state `a`: undefined behaviour, so no result. -/
def flow_off_end {α : Type} (_ : α) : Option α := none

/-- The loop of `std::copy`: `n` times `*d++ = *first++`, from block `src` into block `dst`. -/
def std_copy_loop {α : Type} (src : List α) : Nat → Nat → List α → Nat → Option (List α)
  | 0, _, dst, _ => some dst
  | n + 1, first, dst, d =>
    match src[first]? with
    | none => none
    | some x =>
      match store dst d x with
      | none => none
      | some dst1 => std_copy_loop src n (first + 1) dst1 (d + 1)

/-- The call `std::copy(first, last, d)` between two distinct blocks. -/
def std_copy {α : Type} (src : List α) (first last : Nat) (dst : List α) (d : Nat) :
    Option (List α) :=
  if last < first then none else std_copy_loop src (last - first) first dst d

/-- The loop of `std::fill`: `n` times `*first++ = x`. -/
def std_fill_loop {α : Type} (x : α) : Nat → List α → Nat → Option (List α)
  | 0, b, _ => some b
  | n + 1, b, first =>
    match store b first x with
    | none => none
    | some b1 => std_fill_loop x n b1 (first + 1)

/-- The call `std::fill(first, last, x)`. -/
def std_fill {α : Type} (b : List α) (first last : Nat) (x : α) : Option (List α) :=
  if last < first then none else std_fill_loop x (last - first) b first

/-- The loop of `std::move_backward`: `n` times `*(--d_last) = std::move(*(--last))`,
inside one block, highest index first. -/
def std_move_backward_loop {α : Type} : Nat → List α → Nat → Nat → Option (List α)
  | 0, b, _, _ => some b
  | n + 1, b, last, d_last =>
    if last = 0 ∨ d_last = 0 then none
    else
      match b[last - 1]? with
      | none => none
      | some x =>
        match store b (d_last - 1) x with
        | none => none
        | some b1 => std_move_backward_loop n b1 (last - 1) (d_last - 1)

/-- The call `std::move_backward(first, last, d_last)`. -/
def std_move_backward {α : Type} (b : List α) (first last d_last : Nat) : Option (List α) :=
  if last < first then none else std_move_backward_loop (last - first) b last d_last

/-- The loop of `std::equal`: compare `n` pairs of slots, stop at the first mismatch. -/
def std_equal_loop {α : Type} [DecidableEq α] (a b : List α) : Nat → Nat → Nat → Option Bool
  | 0, _, _ => some true
  | n + 1, first1, first2 =>
    match a[first1]?, b[first2]? with
    | some x, some y =>
      if x = y then std_equal_loop a b n (first1 + 1) (first2 + 1) else some false
    | _, _ => none

/-! ## Constructors -/

/-- The default constructor `Vector()` (src/Vector.h:106-107). -/
def Vector.default_ctor : Vector T :=
  { values := none, v_size := 0, v_capacity := 0, ctor_initialized := false }

/-- The constructor `Vector(size_type sz)` (src/Vector.h:109-111): raw storage, no element. -/
def Vector.size_ctor (sz : Nat) : Vector T :=
  { values := some (List.replicate sz none), v_size := 0, v_capacity := sz,
    ctor_initialized := false }

/-- The constructor `Vector(size_type sz, const_reference v)` (src/Vector.h:113-118).
Members are initialised in the order of their declaration (src/Vector.h:13-16), `values`
first: the allocation `::operator new (sizeof(T) * v_capacity)` at line 115 reads
`v_capacity` before the initialiser `v_capacity(sz)` has run.  `indeterminate` is the value
that read yields, so the block has `indeterminate` slots; then `std::fill(begin(), end(), v)`
stores `sz` elements. -/
def Vector.fill_ctor (indeterminate sz : Nat) (v : T) : Option (Vector T) :=
  (std_fill (List.replicate indeterminate none) 0 sz (some v)).map fun b =>
    { values := some b, v_size := sz, v_capacity := sz, ctor_initialized := true }

/-- The constructor `Vector(const std::initializer_list<T>&)` (src/Vector.h:120-125).  As
in `fill_ctor`, the allocation at line 122 reads `v_capacity` before it is initialised and
the block has `indeterminate` slots; then `std::copy` stores the elements of the list. -/
def Vector.init_list_ctor (indeterminate : Nat) (i_list : List T) : Option (Vector T) :=
  (std_copy (i_list.map some) 0 i_list.length (List.replicate indeterminate none) 0).map
    fun b =>
      { values := some b, v_size := i_list.length, v_capacity := i_list.length,
        ctor_initialized := true }

/-- The copy constructor `Vector(const Vector&)` (src/Vector.h:135-140).  `values` is
initialised first: the allocation `::operator new (sizeof(T) * v_size)` at line 137 reads the
new object's own `v_size` before the initialiser `v_size(src.v_size)` has run, so the block
has `indeterminate` slots.  Then `v_size` and `v_capacity` become `src.v_size` and
`std::copy` stores `[src.begin(), src.end())` into the block; `ctor_initialized` keeps its
default member initialiser `false` (src/Vector.h:16). -/
def Vector.copy_ctor (indeterminate : Nat) (src : Vector T) : Option (Vector T) :=
  (std_copy src.cells 0 src.v_size (List.replicate indeterminate none) 0).map fun b =>
    { values := some b, v_size := src.v_size, v_capacity := src.v_size,
      ctor_initialized := false }

/-! ## Element access and capacity queries -/

/-- The member `size()` (src/Vector.h:575-579). -/
def Vector.size (v : Vector T) : Nat := v.v_size

/-- The member `capacity()` (src/Vector.h:581-585). -/
def Vector.capacity (v : Vector T) : Nat := v.v_capacity

/-- The unchecked `operator[]` (src/Vector.h:247-251): `values[i]`. -/
def Vector.index (v : Vector T) (i : Nat) : Option (Slot T) := v.cells[i]?

/-- The checked accessor `at(n)` (src/Vector.h:253-261), in state-passing form: the outcome
of the call and the container afterwards.  (`at` is a reserved word of Lean, hence `at_`.) -/
def Vector.at_ (v : Vector T) (n : Nat) : Except Fault (Slot T) × Vector T :=
  if n ≥ v.v_size then (.error (.out_of_range n v.size), v)
  else
    match v.cells[n]? with
    | some x => (.ok x, v)
    | none => (.error .undefined_behaviour, v)

/-- The function `operator==` (src/Vector.h:604-608). -/
def operator_eq [DecidableEq T] (lhs rhs : Vector T) : Option Bool :=
  if lhs.size = rhs.size then std_equal_loop lhs.cells rhs.cells lhs.v_size 0 0
  else some false

/-! ## Modifiers -/

/-- The private member `reallocate()` (src/Vector.h:593-602): a fresh block of `v_capacity`
slots receives `[begin(), end())`, the old block is released. -/
def Vector.reallocate (v : Vector T) : Option (Vector T) :=
  (std_copy v.cells 0 v.v_size (List.replicate v.v_capacity none) 0).map fun temp =>
    { v with values := some temp }

/-- The capacity chosen by `emplace_back` when `v_size == v_capacity`
(src/Vector.h:297-307). -/
def Vector.grown_capacity (v : Vector T) : Nat :=
  if v.ctor_initialized then v.v_capacity * 2
  else if v.v_size = 0 then 1
  else if v.v_size < 8 then v.v_capacity + 1
  else if v.v_size ≥ 8 then v.v_capacity * 2
  else v.v_capacity

/-- The member `emplace_back` (src/Vector.h:291-313) for a single argument. -/
def Vector.emplace_back (v : Vector T) (x : T) : Option (Vector T) :=
  (if v.v_size = v.v_capacity then
      Vector.reallocate { v with v_capacity := v.grown_capacity }
    else some v).bind fun v1 =>
  (store v1.cells v1.v_size (some x)).map fun b =>
    { v1 with values := some b, v_size := v1.v_size + 1 }

/-- The member `push_back` (src/Vector.h:437-447): both overloads forward to
`emplace_back`. -/
def Vector.push_back (v : Vector T) (x : T) : Option (Vector T) := v.emplace_back x

/-- The member `emplace(pos, args...)` (src/Vector.h:315-346), `dist` being `pos - begin()`.
The branch `dist == v_capacity` (lines 323-326) calls `emplace_back` and has no `return`:
control leaves the `if` and reaches the closing brace of the function.  The other branch
ends in `return iter`. -/
def Vector.emplace (v : Vector T) (dist : Nat) (x : T) : Option (Vector T) :=
  if dist = v.v_capacity then (v.emplace_back x).bind flow_off_end
  else
    (if v.v_size = v.v_capacity then
        Vector.reallocate { v with v_capacity := v.v_capacity * 2 }
      else some v).bind fun v1 =>
    (std_move_backward v1.cells dist v1.v_size (v1.v_size + 1)).bind fun b =>
    (store b dist (some x)).map fun b1 =>
      { v1 with values := some b1, v_size := v1.v_size + 1 }

/-- The single-value overload `insert(const_iterator pos, reference& v)`
(src/Vector.h:360-364): the call `emplace(pos, std::forward<T>(v))`, then the closing brace;
the function is declared to return `iterator` and has no `return`.  The two `const_reference`
overloads (src/Vector.h:348-358) have the same body shape, and their call `emplace(pos, v)`
instantiates line 325 with `std::forward<T>` applied to a `const T&`, which no overload of
`std::forward` accepts. -/
def Vector.insert (v : Vector T) (dist : Nat) (x : T) : Option (Vector T) :=
  (v.emplace dist x).bind flow_off_end

/-- The search `for(inc = 2; v_size > pow(2, inc); ++inc);` of `erase` (src/Vector.h:475),
with `pow` read as exact exponentiation; the first argument bounds the number of steps. -/
def erase_inc_loop (sz : Nat) : Nat → Nat → Nat
  | 0, inc => inc
  | fuel + 1, inc => if sz > 2 ^ inc then erase_inc_loop sz fuel (inc + 1) else inc

/-- The copy loop of `erase` (src/Vector.h:486-490): `n` rounds of
`if(j != dist) temp[i++] = values[j]; ++j`. -/
def erase_copy_loop {α : Type} (vals : List α) (dist : Nat) :
    Nat → Nat → Nat → List α → Option (List α)
  | 0, _, _, temp => some temp
  | n + 1, i, j, temp =>
    if j ≠ dist then
      match vals[j]? with
      | none => none
      | some x =>
        match store temp i x with
        | none => none
        | some temp1 => erase_copy_loop vals dist n (i + 1) (j + 1) temp1
    else erase_copy_loop vals dist n i (j + 1) temp

/-- The member `erase(const_iterator pos)` (src/Vector.h:458-497), `dist` being
`pos - begin()`.  The copy loop runs for `j = 0, ..., v_size`, that is `v_size + 1` rounds
with the decremented `v_size`. -/
def Vector.erase (v : Vector T) (dist : Nat) : Option (Vector T) :=
  let sz := if v.v_size ≠ 0 then v.v_size - 1 else v.v_size
  let inc := erase_inc_loop sz sz 2
  let cap := if sz = 0 then 0 else 2 ^ inc
  if cap ≠ 0 then
    (erase_copy_loop v.cells dist (sz + 1) 0 0 (List.replicate cap none)).map fun temp =>
      { v with values := some temp, v_size := sz, v_capacity := cap }
  else some { v with v_size := sz, v_capacity := cap }

/-- The member `resize(size_type n, const_reference x)` (src/Vector.h:546-563). -/
def Vector.resize (v : Vector T) (n : Nat) (x : T) : Option (Vector T) :=
  (if n > v.v_capacity then
      Vector.reallocate { v with ctor_initialized := true, v_capacity := n }
    else some v).bind fun v1 =>
  (if n > v1.v_size then
      (std_fill v1.cells v1.v_size n (some x)).map fun b => { v1 with values := some b }
    else some v1).map fun v2 =>
  { v2 with v_size := n }

/-- The loop of the algorithm `std::move(first, last, d)`: `n` times
`*d++ = std::move(*first++)`, inside one block, lowest index first. -/
def std_move_loop {α : Type} : Nat → List α → Nat → Nat → Option (List α)
  | 0, b, _, _ => some b
  | n + 1, b, first, d =>
    match b[first]? with
    | none => none
    | some x =>
      match store b d x with
      | none => none
      | some b1 => std_move_loop n b1 (first + 1) (d + 1)

/-- The call `std::move(first, last, d)` on iterators of one block. -/
def std_move {α : Type} (b : List α) (first last d : Nat) : Option (List α) :=
  if last < first then none else std_move_loop (last - first) b first d

/-- The fill overload `void insert(iterator pos, size_type n, const_reference x)`
(src/Vector.h:366-383), `dist` being `pos - begin()`. -/
def Vector.insert_fill (v : Vector T) (dist n : Nat) (x : T) : Option (Vector T) :=
  (if v.v_size + n > v.v_capacity then
      Vector.reallocate { v with v_capacity := v.v_capacity + n }
    else some v).bind fun v1 =>
  (std_move_backward v1.cells dist v1.v_size (v1.v_size + n)).bind fun b =>
  (std_fill b dist (dist + n) (some x)).map fun b1 =>
    { v1 with values := some b1, v_size := v1.v_size + n }

/-- The fill overload `iterator insert(const_iterator pos, size_type n, const_reference x)`
(src/Vector.h:385-406): as the other one, with the fill written through `iter = &values[dist]`,
the address `begin() + dist` taken after the reallocation. -/
def Vector.insert_fill_const (v : Vector T) (dist n : Nat) (x : T) : Option (Vector T) :=
  (if v.v_size + n > v.v_capacity then
      Vector.reallocate { v with v_capacity := v.v_capacity + n }
    else some v).bind fun v1 =>
  (std_move_backward v1.cells dist v1.v_size (v1.v_size + n)).bind fun b =>
  (std_fill b dist (dist + n) (some x)).map fun b1 =>
    { v1 with values := some b1, v_size := v1.v_size + n }

/-- The range overload `insert(iterator pos, InputInterator first, InputInterator last)`
(src/Vector.h:409-435).  The input range is the list `r` (so `last - first` is `r.length`)
and `ps` is `pos - begin()`.  An empty range returns at once; otherwise, when
`v_size + dist > v_capacity`, the capacity grows by `dist + dist + dist`, the storage is
reallocated and `v_size` grows by `dist` (inside that branch only); then
`std::move_backward(pos, pos + dist, end())` and `std::copy(first, last, pos)`. -/
def Vector.insert_range (v : Vector T) (ps : Nat) (r : List T) : Option (Vector T) :=
  if r.length = 0 then some v
  else
    (if v.v_size + r.length > v.v_capacity then
        (Vector.reallocate
          { v with v_capacity := v.v_capacity + (r.length + r.length + r.length) }).map
          fun v1 => { v1 with v_size := v1.v_size + r.length }
      else some v).bind fun v1 =>
    (std_move_backward v1.cells ps (ps + r.length) v1.v_size).bind fun b =>
    (std_copy (r.map some) 0 r.length b ps).map fun b1 => { v1 with values := some b1 }

/-- The statements of `erase(iterator first, iterator last)` (src/Vector.h:502-506), the
arguments being the offsets of the two iterators: `std::move(last, end(), first)`, then
`v_size -= last - first`.  A pair with `last` before `first` denotes no range and has no
result here. -/
def Vector.erase_range_statements (v : Vector T) (first last : Nat) : Option (Vector T) :=
  if last < first then none
  else
    (std_move v.cells last v.v_size first).map fun b =>
      { v with values := some b, v_size := v.v_size - (last - first) }

/-- The member `erase(iterator first, iterator last)` (src/Vector.h:499-507): its statements,
then the closing brace; the function is declared to return `iterator` and has no `return`. -/
def Vector.erase_range (v : Vector T) (first last : Nat) : Option (Vector T) :=
  (v.erase_range_statements first last).bind flow_off_end

/-- The member `reserve(size_type n)` (src/Vector.h:522-530). -/
def Vector.reserve (v : Vector T) (n : Nat) : Option (Vector T) :=
  if n > v.v_capacity then Vector.reallocate { v with v_capacity := n } else some v

/-- The member `swap(Vector& other)` (src/Vector.h:565-573): it exchanges `values`, `v_size`
and `v_capacity`.  The result is the pair (`*this` afterwards, `other` afterwards). -/
def Vector.swap (v other : Vector T) : Vector T × Vector T :=
  ({ v with values := other.values, v_size := other.v_size, v_capacity := other.v_capacity },
   { other with values := v.values, v_size := v.v_size, v_capacity := v.v_capacity })

/-- The function `operator!=` (src/Vector.h:610-614): `!(lhs == rhs)`. -/
def operator_ne [DecidableEq T] (lhs rhs : Vector T) : Option Bool :=
  (operator_eq lhs rhs).map fun r => !r

/-- A run of `push_back` calls, one per list entry, left to right. -/
def Vector.push_all : Vector T → List T → Option (Vector T)
  | v, [] => some v
  | v, x :: xs => (v.push_back x).bind fun v1 => Vector.push_all v1 xs

/-! ## Representation invariant -/

/-- The storage invariant of the data model: the live range fits the capacity, and the block
behind `values` has at least `v_capacity` slots. -/
def Vector.WF (v : Vector T) : Prop :=
  v.v_size ≤ v.v_capacity ∧ v.v_capacity ≤ v.cells.length

/-! ## Storage loops: what each loop leaves in the block -/

theorem store_of_lt {α : Type} {b : List α} {i : Nat} (x : α) (h : i < b.length) :
    store b i x = some (b.set i x) := by
  simp [store, h]

theorem store_eq_some {α : Type} {b r : List α} {i : Nat} {x : α} (h : store b i x = some r) :
    i < b.length ∧ r = b.set i x := by
  unfold store at h
  split at h
  · exact ⟨by assumption, by simpa using h.symm⟩
  · simp at h

theorem std_copy_loop_spec {α : Type} (src : List α) :
    ∀ (n first : Nat) (dst : List α) (d : Nat),
      first + n ≤ src.length → d + n ≤ dst.length →
      ∃ r, std_copy_loop src n first dst d = some r ∧ r.length = dst.length ∧
        ∀ k, r[k]? = if d ≤ k ∧ k < d + n then src[first + (k - d)]? else dst[k]? := by
  intro n
  induction n with
  | zero =>
    intro first dst d _ _
    refine ⟨dst, rfl, rfl, fun k => ?_⟩
    have : ¬ (d ≤ k ∧ k < d + 0) := by omega
    rw [if_neg this]
  | succ n ih =>
    intro first dst d hs hd
    have hf : first < src.length := by omega
    have hdl : d < dst.length := by omega
    obtain ⟨r, hr, hlen, hk⟩ := ih (first + 1) (dst.set d src[first]) (d + 1)
      (by omega) (by simp; omega)
    refine ⟨r, ?_, by simpa using hlen, fun k => ?_⟩
    · simp [std_copy_loop, List.getElem?_eq_getElem hf, store_of_lt _ hdl, hr]
    · rw [hk k]
      by_cases h1 : d + 1 ≤ k ∧ k < d + 1 + n
      · have h2 : d ≤ k ∧ k < d + (n + 1) := by omega
        have h3 : first + 1 + (k - (d + 1)) = first + (k - d) := by omega
        rw [if_pos h1, if_pos h2, h3]
      · by_cases h4 : k = d
        · subst h4
          have h2 : k ≤ k ∧ k < k + (n + 1) := by omega
          rw [if_neg h1, if_pos h2]
          simp [List.getElem?_set, hdl, List.getElem?_eq_getElem hf]
        · have h2 : ¬ (d ≤ k ∧ k < d + (n + 1)) := by omega
          have h5 : d ≠ k := fun h => h4 h.symm
          rw [if_neg h1, if_neg h2]
          simp [List.getElem?_set, h5]

theorem std_fill_loop_spec {α : Type} (x : α) :
    ∀ (n : Nat) (b : List α) (first : Nat), first + n ≤ b.length →
      ∃ r, std_fill_loop x n b first = some r ∧ r.length = b.length ∧
        ∀ k, r[k]? = if first ≤ k ∧ k < first + n then some x else b[k]? := by
  intro n
  induction n with
  | zero =>
    intro b first _
    refine ⟨b, rfl, rfl, fun k => ?_⟩
    have : ¬ (first ≤ k ∧ k < first + 0) := by omega
    rw [if_neg this]
  | succ n ih =>
    intro b first hb
    have hlt : first < b.length := by omega
    obtain ⟨r, hr, hlen, hk⟩ := ih (b.set first x) (first + 1) (by simp; omega)
    refine ⟨r, ?_, by simpa using hlen, fun k => ?_⟩
    · simp [std_fill_loop, store_of_lt _ hlt, hr]
    · rw [hk k]
      by_cases h1 : first + 1 ≤ k ∧ k < first + 1 + n
      · have h2 : first ≤ k ∧ k < first + (n + 1) := by omega
        rw [if_pos h1, if_pos h2]
      · by_cases h4 : k = first
        · subst h4
          have h2 : k ≤ k ∧ k < k + (n + 1) := by omega
          rw [if_neg h1, if_pos h2]
          simp [List.getElem?_set, hlt]
        · have h2 : ¬ (first ≤ k ∧ k < first + (n + 1)) := by omega
          have h5 : first ≠ k := fun h => h4 h.symm
          rw [if_neg h1, if_neg h2]
          simp [List.getElem?_set, h5]

theorem std_move_backward_loop_spec {α : Type} (s : Nat) :
    ∀ (n : Nat) (b : List α) (last : Nat), n ≤ last → last + s ≤ b.length →
      ∃ r, std_move_backward_loop n b last (last + s) = some r ∧ r.length = b.length ∧
        ∀ k, r[k]? = if last - n + s ≤ k ∧ k < last + s then b[k - s]? else b[k]? := by
  intro n
  induction n with
  | zero =>
    intro b last _ _
    refine ⟨b, rfl, rfl, fun k => ?_⟩
    have : ¬ (last - 0 + s ≤ k ∧ k < last + s) := by omega
    rw [if_neg this]
  | succ n ih =>
    intro b last hn hb
    have h0 : ¬ (last = 0 ∨ last + s = 0) := by omega
    have hl : last - 1 < b.length := by omega
    have hd : last + s - 1 < b.length := by omega
    have he : last + s - 1 = (last - 1) + s := by omega
    obtain ⟨r, hr, hlen, hk⟩ := ih (b.set (last + s - 1) b[last - 1]) (last - 1)
      (by omega) (by simp; omega)
    refine ⟨r, ?_, by simpa using hlen, fun k => ?_⟩
    · rw [← he] at hr
      simp only [std_move_backward_loop, if_neg h0, List.getElem?_eq_getElem hl,
        store_of_lt _ hd, hr]
    · rw [hk k]
      by_cases h1 : last - 1 - n + s ≤ k ∧ k < last - 1 + s
      · have h2 : last - (n + 1) + s ≤ k ∧ k < last + s := by omega
        have h3 : last + s - 1 ≠ k - s := by omega
        rw [if_pos h1, if_pos h2]
        simp [List.getElem?_set, h3]
      · by_cases h4 : k = last + s - 1
        · have h2 : last - (n + 1) + s ≤ k ∧ k < last + s := by omega
          have h3 : k - s = last - 1 := by omega
          rw [if_neg h1, if_pos h2, h3, h4]
          simp [List.getElem?_set, hd, List.getElem?_eq_getElem hl]
        · have h2 : ¬ (last - (n + 1) + s ≤ k ∧ k < last + s) := by omega
          have h5 : last + s - 1 ≠ k := fun h => h4 h.symm
          rw [if_neg h1, if_neg h2]
          simp [List.getElem?_set, h5]

theorem erase_copy_loop_plain {α : Type} (vals : List α) (dist : Nat) :
    ∀ (n i j : Nat) (temp : List α), (dist < j ∨ j + n ≤ dist) →
      j + n ≤ vals.length → i + n ≤ temp.length →
      ∃ r, erase_copy_loop vals dist n i j temp = some r ∧ r.length = temp.length ∧
        ∀ k, r[k]? = if i ≤ k ∧ k < i + n then vals[j + (k - i)]? else temp[k]? := by
  intro n
  induction n with
  | zero =>
    intro i j temp _ _ _
    refine ⟨temp, rfl, rfl, fun k => ?_⟩
    have : ¬ (i ≤ k ∧ k < i + 0) := by omega
    rw [if_neg this]
  | succ n ih =>
    intro i j temp hdist hv ht
    have hj : j ≠ dist := by omega
    have hjl : j < vals.length := by omega
    have hil : i < temp.length := by omega
    obtain ⟨r, hr, hlen, hk⟩ := ih (i + 1) (j + 1) (temp.set i vals[j])
      (by omega) (by omega) (by simp; omega)
    refine ⟨r, ?_, by simpa using hlen, fun k => ?_⟩
    · simp only [erase_copy_loop, if_pos hj, List.getElem?_eq_getElem hjl,
        store_of_lt _ hil, hr]
    · rw [hk k]
      by_cases h1 : i + 1 ≤ k ∧ k < i + 1 + n
      · have h2 : i ≤ k ∧ k < i + (n + 1) := by omega
        have h3 : j + 1 + (k - (i + 1)) = j + (k - i) := by omega
        rw [if_pos h1, if_pos h2, h3]
      · by_cases h4 : k = i
        · subst h4
          have h2 : k ≤ k ∧ k < k + (n + 1) := by omega
          rw [if_neg h1, if_pos h2]
          simp [List.getElem?_set, hil, List.getElem?_eq_getElem hjl]
        · have h2 : ¬ (i ≤ k ∧ k < i + (n + 1)) := by omega
          have h5 : i ≠ k := fun h => h4 h.symm
          rw [if_neg h1, if_neg h2]
          simp [List.getElem?_set, h5]

theorem erase_copy_loop_skip {α : Type} (vals : List α) (dist : Nat) :
    ∀ (n i j : Nat) (temp : List α), j ≤ dist → dist < j + n →
      j + n ≤ vals.length → i + (n - 1) ≤ temp.length →
      ∃ r, erase_copy_loop vals dist n i j temp = some r ∧ r.length = temp.length ∧
        ∀ k, r[k]? =
          if i ≤ k ∧ k < i + (n - 1) then
            (if j + (k - i) < dist then vals[j + (k - i)]? else vals[j + (k - i) + 1]?)
          else temp[k]? := by
  intro n
  induction n with
  | zero =>
    intro i j temp h1 h2 _ _
    omega
  | succ n ih =>
    intro i j temp hjd hdn hv ht
    by_cases hj : j = dist
    · obtain ⟨r, hr, hlen, hk⟩ := erase_copy_loop_plain vals dist n i (j + 1) temp
        (by omega) (by omega) (by omega)
      have hnj : ¬ (j ≠ dist) := by omega
      refine ⟨r, ?_, hlen, fun k => ?_⟩
      · simp only [erase_copy_loop, if_neg hnj, hr]
      · rw [hk k]
        by_cases h1 : i ≤ k ∧ k < i + n
        · have h2 : i ≤ k ∧ k < i + (n + 1 - 1) := by omega
          have h3 : ¬ (j + (k - i) < dist) := by omega
          have h4 : j + 1 + (k - i) = j + (k - i) + 1 := by omega
          rw [if_pos h1, if_pos h2, if_neg h3, h4]
        · have h2 : ¬ (i ≤ k ∧ k < i + (n + 1 - 1)) := by omega
          rw [if_neg h1, if_neg h2]
    · have hjl : j < vals.length := by omega
      have hil : i < temp.length := by omega
      obtain ⟨r, hr, hlen, hk⟩ := ih (i + 1) (j + 1) (temp.set i vals[j])
        (by omega) (by omega) (by omega) (by simp; omega)
      refine ⟨r, ?_, by simpa using hlen, fun k => ?_⟩
      · simp only [erase_copy_loop, if_pos hj, List.getElem?_eq_getElem hjl,
          store_of_lt _ hil, hr]
      · rw [hk k]
        by_cases h1 : i + 1 ≤ k ∧ k < i + 1 + (n - 1)
        · have h2 : i ≤ k ∧ k < i + (n + 1 - 1) := by omega
          have h3 : j + 1 + (k - (i + 1)) = j + (k - i) := by omega
          rw [if_pos h1, if_pos h2, h3]
        · by_cases h4 : k = i
          · subst h4
            have h2 : k ≤ k ∧ k < k + (n + 1 - 1) := by omega
            have h3 : j + (k - k) < dist := by omega
            rw [if_neg h1, if_pos h2, if_pos h3]
            simp [List.getElem?_set, hil, List.getElem?_eq_getElem hjl]
          · have h2 : ¬ (i ≤ k ∧ k < i + (n + 1 - 1)) := by omega
            have h5 : i ≠ k := fun h => h4 h.symm
            rw [if_neg h1, if_neg h2]
            simp [List.getElem?_set, h5]

theorem erase_inc_loop_ge (sz : Nat) :
    ∀ (fuel inc : Nat), sz ≤ fuel + inc → sz ≤ 2 ^ erase_inc_loop sz fuel inc := by
  intro fuel
  induction fuel with
  | zero =>
    intro inc h
    have := Nat.lt_two_pow inc
    simp only [erase_inc_loop]
    omega
  | succ fuel ih =>
    intro inc h
    simp only [erase_inc_loop]
    split
    · exact ih (inc + 1) (by omega)
    · omega

theorem take_eq_of_agree {α : Type} {b cs : List α} {n : Nat}
    (h : ∀ k, k < n → b[k]? = cs[k]?) : b.take n = cs.take n := by
  apply List.ext_getElem?
  intro k
  rw [List.getElem?_take, List.getElem?_take]
  split
  · exact h k (by assumption)
  · rfl

theorem take_push_shape {α : Type} {b cs : List α} {n : Nat} (x : α)
    (hb : n < b.length) (hc : n ≤ cs.length) (h : ∀ k, k < n → b[k]? = cs[k]?) :
    (b.set n x).take (n + 1) = cs.take n ++ [x] := by
  apply List.ext_getElem?
  intro k
  have hl : (cs.take n).length = n := by simp [hc]
  rw [List.getElem?_take, List.getElem?_append, hl, List.getElem?_take]
  by_cases h1 : k < n
  · have h2 : k < n + 1 := by omega
    have h3 : n ≠ k := by omega
    rw [if_pos h2, if_pos h1, if_pos h1, List.getElem?_set, if_neg h3]
    exact h k h1
  · by_cases h2 : k = n
    · subst h2
      simp [List.getElem?_set, hb]
    · have h3 : ¬ (k < n + 1) := by omega
      have h4 : k - n ≠ 0 := by omega
      rw [if_neg h3, if_neg h1]
      cases hk : k - n with
      | zero => omega
      | succ m => simp

theorem take_insert_shape {α : Type} {r cs : List α} {n d : Nat} (x : α)
    (hd : d ≤ n) (hc : n ≤ cs.length)
    (h : ∀ k, k ≤ n → r[k]? = if k < d then cs[k]? else if k = d then some x else cs[k - 1]?) :
    r.take (n + 1) = (cs.take n).take d ++ [x] ++ (cs.take n).drop d := by
  apply List.ext_getElem?
  intro k
  have hl : ((cs.take n).take d).length = d := by simp [hc, hd]
  have hl1 : ((cs.take n).take d ++ [x]).length = d + 1 := by simp [hl]
  rw [List.getElem?_take, List.getElem?_append, hl1, List.getElem?_append, hl]
  by_cases h1 : k < d
  · have h2 : k < n + 1 := by omega
    have h3 : k < d + 1 := by omega
    have h4 : k < n := by omega
    rw [if_pos h2, if_pos h3, if_pos h1, h k (by omega), if_pos h1,
      List.getElem?_take, List.getElem?_take, if_pos h1, if_pos h4]
  · by_cases h2 : k = d
    · subst h2
      have h3 : k < n + 1 := by omega
      rw [if_pos h3, if_pos (by omega), if_neg h1, h k (by omega), if_neg h1, if_pos rfl]
      simp
    · have h3 : ¬ (k < d + 1) := by omega
      rw [if_neg h3, List.getElem?_drop, List.getElem?_take]
      have h5 : d + (k - (d + 1)) = k - 1 := by omega
      rw [h5]
      by_cases h4 : k < n + 1
      · rw [if_pos h4, h k (by omega), if_neg h1, if_neg h2, if_pos (by omega)]
      · rw [if_neg h4, if_neg (by omega)]

theorem take_erase_shape {α : Type} {r cs : List α} {n d : Nat}
    (hd : d < n)
    (h : ∀ k, k < n - 1 → r[k]? = if k < d then cs[k]? else cs[k + 1]?) :
    r.take (n - 1) = (cs.take n).eraseIdx d := by
  apply List.ext_getElem?
  intro k
  rw [List.getElem?_take, List.getElem?_eraseIdx]
  by_cases h1 : k < n - 1
  · rw [if_pos h1, h k h1]
    by_cases h2 : k < d
    · rw [if_pos h2, if_pos h2, List.getElem?_take, if_pos (by omega)]
    · rw [if_neg h2, if_neg h2, List.getElem?_take, if_pos (by omega)]
  · rw [if_neg h1]
    by_cases h2 : k < d
    · omega
    · rw [if_neg h2, List.getElem?_take, if_neg (by omega)]

theorem take_fill_shape {α : Type} {r cs : List α} {n m : Nat} (x : α)
    (hn : n ≤ m) (hc : n ≤ cs.length)
    (h : ∀ k, k < m → r[k]? = if k < n then cs[k]? else some x) :
    r.take m = cs.take n ++ List.replicate (m - n) x := by
  apply List.ext_getElem?
  intro k
  have hl : (cs.take n).length = n := by simp [hc]
  rw [List.getElem?_take, List.getElem?_append, hl, List.getElem?_replicate]
  by_cases h1 : k < m
  · rw [if_pos h1, h k h1]
    by_cases h2 : k < n
    · rw [if_pos h2, if_pos h2, List.getElem?_take, if_pos h2]
    · rw [if_neg h2, if_neg h2, if_pos (by omega)]
  · rw [if_neg h1, if_neg (by omega), if_neg (by omega)]

/-! ## Reallocation and appending -/

theorem reallocate_spec (v : Vector T) (hs : v.v_size ≤ v.cells.length)
    (hc : v.v_size ≤ v.v_capacity) :
    ∃ t, v.reallocate = some { v with values := some t } ∧ t.length = v.v_capacity ∧
      ∀ k, k < v.v_size → t[k]? = v.cells[k]? := by
  obtain ⟨t, ht, hlen, hk⟩ := std_copy_loop_spec v.cells v.v_size 0
    (List.replicate v.v_capacity none) 0 (by omega) (by simp; omega)
  refine ⟨t, ?_, by simpa using hlen, fun k hk1 => ?_⟩
  · simp [Vector.reallocate, std_copy, ht]
  · rw [hk k, if_pos (by omega)]
    simp

theorem grown_capacity_gt (v : Vector T) (hfull : v.v_size = v.v_capacity)
    (h0 : ¬ (v.ctor_initialized = true ∧ v.v_capacity = 0)) :
    v.v_size < v.grown_capacity := by
  unfold Vector.grown_capacity
  split
  · have : v.v_capacity ≠ 0 := fun h => h0 ⟨by assumption, h⟩
    omega
  · split
    · omega
    · split
      · omega
      · split <;> omega

theorem emplace_back_spec (v : Vector T) (x : T) (hwf : v.WF)
    (h0 : ¬ (v.ctor_initialized = true ∧ v.v_capacity = 0)) :
    ∃ w, v.emplace_back x = some w ∧ w.v_size = v.v_size + 1 ∧
      w.elems = v.elems ++ [some x] ∧ w.WF ∧ w.ctor_initialized = v.ctor_initialized ∧
      w.v_capacity = if v.v_size = v.v_capacity then v.grown_capacity else v.v_capacity := by
  obtain ⟨hsc, hcl⟩ := hwf
  by_cases hfull : v.v_size = v.v_capacity
  · have hg := grown_capacity_gt v hfull h0
    obtain ⟨t, ht, hlen, hk⟩ := reallocate_spec { v with v_capacity := v.grown_capacity }
      (by show v.v_size ≤ v.cells.length; omega) (by show v.v_size ≤ v.grown_capacity; omega)
    have hlen1 : t.length = v.grown_capacity := hlen
    have hst : v.v_size < t.length := by omega
    refine ⟨{ v with v_capacity := v.grown_capacity, values := some (t.set v.v_size (some x)),
                     v_size := v.v_size + 1 }, ?_, rfl, ?_, ?_, rfl, ?_⟩
    · simp only [Vector.emplace_back, if_pos hfull, ht, Option.some_bind]
      show Option.map _ (store t v.v_size (some x)) = _
      rw [store_of_lt _ hst]
      rfl
    · show (t.set v.v_size (some x)).take (v.v_size + 1) = v.cells.take v.v_size ++ [some x]
      exact take_push_shape _ hst (by omega) hk
    · constructor
      · show v.v_size + 1 ≤ v.grown_capacity
        omega
      · show v.grown_capacity ≤ (t.set v.v_size (some x)).length
        simp [hlen1]
    · rw [if_pos hfull]
  · have hst : v.v_size < v.cells.length := by omega
    refine ⟨{ v with values := some (v.cells.set v.v_size (some x)),
                     v_size := v.v_size + 1 }, ?_, rfl, ?_, ?_, rfl, ?_⟩
    · simp only [Vector.emplace_back, if_neg hfull, Option.some_bind]
      rw [store_of_lt _ hst]
      rfl
    · show (v.cells.set v.v_size (some x)).take (v.v_size + 1) =
        v.cells.take v.v_size ++ [some x]
      exact take_push_shape _ hst (by omega) (fun _ _ => rfl)
    · constructor
      · show v.v_size + 1 ≤ v.v_capacity
        omega
      · show v.v_capacity ≤ (v.cells.set v.v_size (some x)).length
        simp [hcl]
    · rw [if_neg hfull]

/-! ## Insertion in the middle -/

theorem bind_flow_off_end {α : Type} (o : Option α) : o.bind flow_off_end = none := by
  cases o <;> rfl

theorem emplace_at_capacity (v : Vector T) (x : T) : v.emplace v.v_capacity x = none := by
  simp [Vector.emplace, bind_flow_off_end]

theorem emplace_spec (v : Vector T) (dist : Nat) (x : T) (hwf : v.WF)
    (hd : dist ≤ v.v_size) (hdc : dist ≠ v.v_capacity) :
    ∃ w, v.emplace dist x = some w ∧ w.v_size = v.v_size + 1 ∧
      w.elems = v.elems.take dist ++ [some x] ++ v.elems.drop dist ∧ w.WF := by
  obtain ⟨hsc, hcl⟩ := hwf
  by_cases hdc1 : dist = v.v_capacity
  · exact absurd hdc1 hdc
  · have key : ∀ (c : Nat) (b : List (Slot T)), v.v_size < c → c ≤ b.length →
        (∀ k, k < v.v_size → b[k]? = v.cells[k]?) →
        ∃ b1, ((std_move_backward b dist v.v_size (v.v_size + 1)).bind fun b2 =>
            (store b2 dist (some x)).map fun b3 =>
              ({ values := some b3, v_size := v.v_size + 1, v_capacity := c,
                 ctor_initialized := v.ctor_initialized } : Vector T)) =
          some { values := some b1, v_size := v.v_size + 1, v_capacity := c,
                 ctor_initialized := v.ctor_initialized } ∧
          b1.length = b.length ∧
          b1.take (v.v_size + 1) = v.elems.take dist ++ [some x] ++ v.elems.drop dist := by
      intro c b hc hb hag
      obtain ⟨r, hr, hrl, hrk⟩ := std_move_backward_loop_spec 1 (v.v_size - dist) b v.v_size
        (by omega) (by omega)
      have hdl : dist < r.length := by omega
      refine ⟨r.set dist (some x), ?_, by simpa using hrl, ?_⟩
      · simp only [std_move_backward, if_neg (show ¬ v.v_size < dist by omega), hr,
          Option.some_bind, store_of_lt _ hdl, Option.map_some']
      · apply take_insert_shape (some x) hd (by omega)
        intro k hk
        by_cases h1 : k < dist
        · rw [if_pos h1, List.getElem?_set, if_neg (by omega), hrk k, if_neg (by omega)]
          exact hag k (by omega)
        · by_cases h2 : k = dist
          · rw [if_neg h1, if_pos h2, h2]
            simp [List.getElem?_set, hdl]
          · rw [if_neg h1, if_neg h2, List.getElem?_set, if_neg (fun h => h2 h.symm), hrk k,
              if_pos (by omega)]
            exact hag (k - 1) (by omega)
    by_cases hfull : v.v_size = v.v_capacity
    · obtain ⟨t, ht, hlen, hk⟩ := reallocate_spec { v with v_capacity := v.v_capacity * 2 }
        (by show v.v_size ≤ v.cells.length; omega)
        (by show v.v_size ≤ v.v_capacity * 2; omega)
      have hlen1 : t.length = v.v_capacity * 2 := hlen
      obtain ⟨b1, hb1, hl1, hs1⟩ := key (v.v_capacity * 2) t (by omega) (by omega) hk
      refine ⟨{ values := some b1, v_size := v.v_size + 1, v_capacity := v.v_capacity * 2,
                ctor_initialized := v.ctor_initialized }, ?_, rfl, hs1, ?_⟩
      · simp only [Vector.emplace, if_neg hdc, if_pos hfull, ht, Option.some_bind]
        exact hb1
      · constructor
        · show v.v_size + 1 ≤ v.v_capacity * 2
          omega
        · show v.v_capacity * 2 ≤ b1.length
          omega
    · obtain ⟨b1, hb1, hl1, hs1⟩ := key v.v_capacity v.cells (by omega) hcl (fun _ _ => rfl)
      refine ⟨{ values := some b1, v_size := v.v_size + 1, v_capacity := v.v_capacity,
                ctor_initialized := v.ctor_initialized }, ?_, rfl, hs1, ?_⟩
      · simp only [Vector.emplace, if_neg hdc, if_neg hfull, Option.some_bind]
        exact hb1
      · constructor
        · show v.v_size + 1 ≤ v.v_capacity
          omega
        · show v.v_capacity ≤ b1.length
          omega

/-! ## Single erase and resize -/

theorem erase_spec (v : Vector T) (dist : Nat) (hlive : v.v_size ≤ v.cells.length)
    (hd : dist < v.v_size) :
    ∃ w, v.erase dist = some w ∧ w.v_size = v.v_size - 1 ∧
      w.elems = v.elems.eraseIdx dist ∧ w.WF ∧
      w.ctor_initialized = v.ctor_initialized := by
  have hnz : v.v_size ≠ 0 := by omega
  by_cases hone : v.v_size - 1 = 0
  · have h1 : v.v_size = 1 := by omega
    have h2 : dist = 0 := by omega
    refine ⟨{ v with v_size := 0, v_capacity := 0 }, ?_, by simp [h1], ?_, ?_, rfl⟩
    · simp [Vector.erase, h1]
    · show v.cells.take 0 = (v.cells.take v.v_size).eraseIdx dist
      rw [h1, h2]
      cases v.cells <;> simp
    · exact ⟨Nat.le_refl 0, Nat.zero_le _⟩
  · have hge := erase_inc_loop_ge (v.v_size - 1) (v.v_size - 1) 2 (by omega)
    have hpos : 2 ^ erase_inc_loop (v.v_size - 1) (v.v_size - 1) 2 ≠ 0 := by positivity
    obtain ⟨r, hr, hrl, hrk⟩ := erase_copy_loop_skip v.cells dist (v.v_size - 1 + 1) 0 0
      (List.replicate (2 ^ erase_inc_loop (v.v_size - 1) (v.v_size - 1) 2) none)
      (Nat.zero_le _) (by omega) (by omega) (by simp; omega)
    refine ⟨{ v with values := some r, v_size := v.v_size - 1,
                     v_capacity := 2 ^ erase_inc_loop (v.v_size - 1) (v.v_size - 1) 2 },
      ?_, rfl, ?_, ?_, rfl⟩
    · simp only [Vector.erase, if_pos hnz, if_neg hone, if_pos hpos, hr, Option.map_some',
        ne_eq, not_false_eq_true]
    · show r.take (v.v_size - 1) = (v.cells.take v.v_size).eraseIdx dist
      apply take_erase_shape hd
      intro k hk
      rw [hrk k, if_pos (by omega)]
      simp
    · constructor
      · exact hge
      · show 2 ^ erase_inc_loop (v.v_size - 1) (v.v_size - 1) 2 ≤ r.length
        rw [hrl]
        simp

theorem resize_spec (v : Vector T) (n : Nat) (x : T) (hwf : v.WF) :
    ∃ w, v.resize n x = some w ∧ w.v_size = n ∧ w.v_capacity = max v.v_capacity n ∧
      w.elems = (if n ≤ v.v_size then v.elems.take n
                 else v.elems ++ List.replicate (n - v.v_size) (some x)) ∧ w.WF := by
  obtain ⟨hsc, hcl⟩ := hwf
  by_cases hgrow : n > v.v_capacity
  · obtain ⟨t, ht, hlen, hk⟩ := reallocate_spec
      { v with ctor_initialized := true, v_capacity := n }
      (by show v.v_size ≤ v.cells.length; omega) (by show v.v_size ≤ n; omega)
    have hlen1 : t.length = n := hlen
    obtain ⟨r, hr, hrl, hrk⟩ := std_fill_loop_spec (some x) (n - v.v_size) t v.v_size
      (by omega)
    refine ⟨{ values := some r, v_size := n, v_capacity := n, ctor_initialized := true },
      ?_, rfl, ?_, ?_, ?_⟩
    · simp only [Vector.resize, if_pos hgrow, ht, Option.some_bind]
      show Option.map _ (if n > v.v_size then _ else _) = _
      rw [if_pos (by omega)]
      show Option.map _ (Option.map _ (std_fill t v.v_size n (some x))) = _
      simp only [std_fill, if_neg (show ¬ n < v.v_size by omega), hr, Option.map_some']
    · show n = max v.v_capacity n
      omega
    · rw [if_neg (by omega)]
      show r.take n = v.cells.take v.v_size ++ List.replicate (n - v.v_size) (some x)
      apply take_fill_shape (some x) (by omega) (by omega)
      intro k hk1
      rw [hrk k]
      by_cases h1 : k < v.v_size
      · rw [if_neg (by omega), if_pos h1]
        exact hk k h1
      · rw [if_pos (by omega), if_neg h1]
    · constructor
      · exact Nat.le_refl n
      · show n ≤ r.length
        omega
  · by_cases hlt : n > v.v_size
    · obtain ⟨r, hr, hrl, hrk⟩ := std_fill_loop_spec (some x) (n - v.v_size) v.cells v.v_size
        (by omega)
      refine ⟨{ v with values := some r, v_size := n }, ?_, rfl, ?_, ?_, ?_⟩
      · simp only [Vector.resize, if_neg hgrow, Option.some_bind, if_pos hlt, std_fill,
          if_neg (show ¬ n < v.v_size by omega), hr, Option.map_some']
      · show v.v_capacity = max v.v_capacity n
        omega
      · rw [if_neg (by omega)]
        show r.take n = v.cells.take v.v_size ++ List.replicate (n - v.v_size) (some x)
        apply take_fill_shape (some x) (by omega) (by omega)
        intro k hk1
        rw [hrk k]
        by_cases h1 : k < v.v_size
        · rw [if_neg (by omega), if_pos h1]
        · rw [if_pos (by omega), if_neg h1]
      · constructor
        · show n ≤ v.v_capacity
          omega
        · show v.v_capacity ≤ r.length
          omega
    · refine ⟨{ v with v_size := n }, ?_, rfl, ?_, ?_, ?_⟩
      · simp only [Vector.resize, if_neg hgrow, Option.some_bind, if_neg hlt,
          Option.map_some']
      · show v.v_capacity = max v.v_capacity n
        omega
      · rw [if_pos (by omega)]
        show v.cells.take n = (v.cells.take v.v_size).take n
        rw [List.take_take, Nat.min_eq_left (by omega)]
      · constructor
        · show n ≤ v.v_capacity
          omega
        · exact hcl

/-! ## Runs of `push_back` -/

theorem default_ctor_WF : (Vector.default_ctor : Vector T).WF :=
  ⟨Nat.le_refl 0, Nat.zero_le _⟩

theorem elems_length (v : Vector T) (h : v.v_size ≤ v.cells.length) :
    v.elems.length = v.v_size := by
  show (v.cells.take v.v_size).length = v.v_size
  simp [h]

theorem growth_step (v : Vector T) (hflag : v.ctor_initialized = false)
    (hsc : v.v_size ≤ v.v_capacity)
    (hinv : (v.v_size ≤ 8 ∧ v.v_capacity = v.v_size) ∨
      ∃ j, v.v_capacity = 8 * 2 ^ (j + 1) ∧ 8 * 2 ^ j < v.v_size ∧
        v.v_size ≤ 8 * 2 ^ (j + 1)) :
    ((v.v_size + 1 ≤ 8 ∧
        (if v.v_size = v.v_capacity then v.grown_capacity else v.v_capacity) = v.v_size + 1) ∨
      ∃ j, (if v.v_size = v.v_capacity then v.grown_capacity else v.v_capacity)
          = 8 * 2 ^ (j + 1) ∧ 8 * 2 ^ j < v.v_size + 1 ∧ v.v_size + 1 ≤ 8 * 2 ^ (j + 1)) := by
  rcases hinv with ⟨h8, hcap⟩ | ⟨j, hcap, hlo, hhi⟩
  · rw [if_pos hcap.symm]
    unfold Vector.grown_capacity
    rw [hflag]
    by_cases hz : v.v_size = 0
    · left
      simp [hz]
    · by_cases hlt : v.v_size < 8
      · left
        simp only [Bool.false_eq_true, if_false, if_neg hz, if_pos hlt]
        omega
      · right
        refine ⟨0, ?_, ?_, ?_⟩
        · simp only [Bool.false_eq_true, if_false, if_neg hz, if_neg hlt,
            if_pos (show v.v_size ≥ 8 by omega)]
          omega
        · omega
        · omega
  · right
    have hp : 2 ^ (j + 1) = 2 * 2 ^ j := by rw [pow_succ]; omega
    have hp2 : 2 ^ (j + 1 + 1) = 2 * 2 ^ (j + 1) := by rw [pow_succ]; omega
    have hpos : 0 < 2 ^ j := by positivity
    by_cases hfull : v.v_size = v.v_capacity
    · rw [if_pos hfull]
      refine ⟨j + 1, ?_, ?_, ?_⟩
      · unfold Vector.grown_capacity
        rw [hflag]
        simp only [Bool.false_eq_true, if_false, if_neg (show ¬ v.v_size = 0 by omega),
          if_neg (show ¬ v.v_size < 8 by omega), if_pos (show v.v_size ≥ 8 by omega)]
        omega
      · omega
      · omega
    · rw [if_neg hfull]
      exact ⟨j, hcap, by omega, by omega⟩

theorem push_all_spec (xs : List T) :
    ∀ (v : Vector T), v.WF → v.ctor_initialized = false →
      ((v.v_size ≤ 8 ∧ v.v_capacity = v.v_size) ∨
        ∃ j, v.v_capacity = 8 * 2 ^ (j + 1) ∧ 8 * 2 ^ j < v.v_size ∧
          v.v_size ≤ 8 * 2 ^ (j + 1)) →
      ∃ w, v.push_all xs = some w ∧ w.v_size = v.v_size + xs.length ∧
        w.elems = v.elems ++ xs.map some ∧ w.WF ∧ w.ctor_initialized = false ∧
        ((w.v_size ≤ 8 ∧ w.v_capacity = w.v_size) ∨
          ∃ j, w.v_capacity = 8 * 2 ^ (j + 1) ∧ 8 * 2 ^ j < w.v_size ∧
            w.v_size ≤ 8 * 2 ^ (j + 1)) := by
  induction xs with
  | nil =>
    intro v hwf hflag hinv
    exact ⟨v, rfl, by simp, by simp, hwf, hflag, hinv⟩
  | cons x xs ih =>
    intro v hwf hflag hinv
    obtain ⟨v1, hv1, hsz, hel, hwf1, hfl, hcap⟩ :=
      emplace_back_spec v x hwf (by simp [hflag])
    have hstep := growth_step v hflag hwf.1 hinv
    rw [← hcap, ← hsz] at hstep
    obtain ⟨w, hw, hwsz, hwel, hwwf, hwfl, hwinv⟩ := ih v1 hwf1 (by rw [hfl, hflag]) hstep
    refine ⟨w, ?_, ?_, ?_, hwwf, hwfl, hwinv⟩
    · simp only [Vector.push_all, Vector.push_back, hv1, Option.some_bind, hw]
    · rw [hwsz, hsz, List.length_cons]
      omega
    · rw [hwel, hel]
      simp

/-! ## Appending: size, order and the capacity sequence -/

/-- C1. For every list `xs` of values and every `k ≤ |xs|`, the first `k` calls
`push_back(xs[0]), ..., push_back(xs[k-1])` on a default-constructed `Vector` all return, and
leave `size() == k`, the element sequence equal to the first `k` pushed values in order
(element `i` is `xs[i]`), and `capacity() >= size()`.  Taking `k = |xs|` gives the state after
the whole run; the other `k` give the state after each call. -/
theorem push_back_run_size_and_order (xs : List T) (k : Nat) (hk : k ≤ xs.length) :
    ∃ w, (Vector.default_ctor : Vector T).push_all (xs.take k) = some w ∧
      w.size = k ∧ w.elems = (xs.take k).map some ∧
      (∀ i, (hi : i < k) → w.index i = some (some (xs.get ⟨i, by omega⟩))) ∧
      w.capacity ≥ w.size := by
  obtain ⟨w, hw, hsz, hel, hwf, _, _⟩ := push_all_spec (xs.take k)
    (Vector.default_ctor : Vector T) default_ctor_WF rfl (Or.inl ⟨Nat.zero_le _, rfl⟩)
  have hlen : (xs.take k).length = k := by simp [hk]
  have hsz1 : w.v_size = k := by
    rw [hsz, hlen]
    show 0 + k = k
    omega
  have hel1 : w.elems = (xs.take k).map some := by
    rw [hel]
    show ([] : List (Slot T)).take 0 ++ _ = _
    simp
  refine ⟨w, hw, hsz1, hel1, ?_, hwf.1⟩
  intro i hi
  have h1 : w.elems[i]? = w.cells[i]? := by
    show (w.cells.take w.v_size)[i]? = w.cells[i]?
    rw [List.getElem?_take, if_pos (by omega)]
  show w.cells[i]? = _
  rw [← h1, hel1, List.getElem?_map, List.getElem?_take, if_pos hi,
    List.getElem?_eq_getElem (by omega)]
  rfl

/-- A run of C1 on concrete values: three calls `push_back(1)`, `push_back(2)`,
`push_back(3)` give size 3 and the sequence `[1, 2, 3]`. -/
theorem push_back_run_size_and_order_witness :
    ((Vector.default_ctor : Vector Nat).push_all [1, 2, 3]).map Vector.elems
        = some [some 1, some 2, some 3] ∧
    ∃ w, (Vector.default_ctor : Vector Nat).push_all ([1, 2, 3].take 3) = some w ∧
      w.size = 3 ∧ w.elems = ([1, 2, 3].take 3).map some ∧
      (∀ i, (hi : i < 3) → w.index i = some (some (([1, 2, 3] : List Nat).get ⟨i, by
        simp only [List.length_cons, List.length_nil]; omega⟩))) ∧
      w.capacity ≥ w.size :=
  ⟨by decide, push_back_run_size_and_order [1, 2, 3] 3 (by decide)⟩

/-- C2. Starting from a default-constructed `Vector`, the capacity after the `k`-th
`push_back` is `k` for `1 ≤ k ≤ 8`, is `16` for `k = 9`, and for every `k > 8` is the smallest
number of the form `8 * 2 ^ j` that is at least `k`; the run itself always returns. -/
theorem push_back_capacity_sequence (xs : List T) :
    ∃ w, (Vector.default_ctor : Vector T).push_all xs = some w ∧
      (1 ≤ xs.length ∧ xs.length ≤ 8 → w.capacity = xs.length) ∧
      (xs.length = 9 → w.capacity = 16) ∧
      (8 < xs.length → ∃ j, w.capacity = 8 * 2 ^ j ∧ xs.length ≤ 8 * 2 ^ j ∧
        ∀ i, xs.length ≤ 8 * 2 ^ i → 8 * 2 ^ j ≤ 8 * 2 ^ i) := by
  obtain ⟨w, hw, hsz, _, _, _, hinv⟩ := push_all_spec xs
    (Vector.default_ctor : Vector T) default_ctor_WF rfl (Or.inl ⟨Nat.zero_le _, rfl⟩)
  have hsz1 : w.v_size = xs.length := by
    rw [hsz]
    show 0 + xs.length = xs.length
    omega
  rw [hsz1] at hinv
  have hbig : 8 < xs.length → ∃ j, w.capacity = 8 * 2 ^ j ∧ xs.length ≤ 8 * 2 ^ j ∧
      ∀ i, xs.length ≤ 8 * 2 ^ i → 8 * 2 ^ j ≤ 8 * 2 ^ i := by
    intro h8
    rcases hinv with ⟨h, _⟩ | ⟨j, hcap, hlo, hhi⟩
    · omega
    · refine ⟨j + 1, hcap, hhi, fun i hi => ?_⟩
      have hlt : 2 ^ j < 2 ^ i := by omega
      have hji : j < i := (Nat.pow_lt_pow_iff_right (by decide)).1 hlt
      have hle : 2 ^ (j + 1) ≤ 2 ^ i := Nat.pow_le_pow_right (by decide) hji
      omega
  refine ⟨w, hw, ?_, ?_, hbig⟩
  · intro h
    rcases hinv with ⟨_, hcap⟩ | ⟨j, _, hlo, _⟩
    · exact hcap
    · have : 0 < 2 ^ j := by positivity
      omega
  · intro h9
    obtain ⟨j, hcap, hle, hmin⟩ := hbig (by omega)
    have h16 := hmin 1 (by omega)
    have hj : j ≠ 0 := by
      intro h0
      rw [h0] at hle
      omega
    have h2 : 2 ^ 1 ≤ 2 ^ j := Nat.pow_le_pow_right (by decide) (by omega)
    rw [hcap]
    omega

/-- The capacities of C2 observed on a concrete run: after pushes 1 to 9 they read
`1, 2, 3, 4, 5, 6, 7, 8, 16`. -/
theorem push_back_capacity_sequence_witness :
    ((List.range 10).tail.map fun k =>
        ((Vector.default_ctor : Vector Nat).push_all (List.range k)).map Vector.capacity)
      = [some 1, some 2, some 3, some 4, some 5, some 6, some 7, some 8, some 16] ∧
    ∃ w, (Vector.default_ctor : Vector Nat).push_all (List.range 9) = some w ∧
      (1 ≤ (List.range 9).length ∧ (List.range 9).length ≤ 8 →
        w.capacity = (List.range 9).length) ∧
      ((List.range 9).length = 9 → w.capacity = 16) ∧
      (8 < (List.range 9).length → ∃ j, w.capacity = 8 * 2 ^ j ∧
        (List.range 9).length ≤ 8 * 2 ^ j ∧
        ∀ i, (List.range 9).length ≤ 8 * 2 ^ i → 8 * 2 ^ j ≤ 8 * 2 ^ i) :=
  ⟨by decide, push_back_capacity_sequence (List.range 9)⟩

/-! ## Construction with elements: fill, initializer list and copy -/

theorem std_equal_loop_of_agree {α : Type} [DecidableEq α] (a b : List α) :
    ∀ (n i : Nat), i + n ≤ a.length → i + n ≤ b.length →
      (∀ k, i ≤ k → k < i + n → a[k]? = b[k]?) →
      std_equal_loop a b n i i = some true := by
  intro n
  induction n with
  | zero =>
    intro i _ _ _
    rfl
  | succ n ih =>
    intro i ha hb h
    have hia : i < a.length := by omega
    have hib : i < b.length := by omega
    have he : a[i] = b[i] := by
      have := h i (Nat.le_refl i) (by omega)
      rw [List.getElem?_eq_getElem hia, List.getElem?_eq_getElem hib] at this
      exact Option.some.inj this
    simp only [std_equal_loop, List.getElem?_eq_getElem hia, List.getElem?_eq_getElem hib,
      if_pos he]
    exact ih (i + 1) (by omega) (by omega) (fun k h1 h2 => h k (by omega) (by omega))

theorem std_copy_loop_short {α : Type} (src : List α) :
    ∀ (n first : Nat) (dst : List α) (d : Nat),
      first + n ≤ src.length → d ≤ dst.length → dst.length < d + n →
      std_copy_loop src n first dst d = none := by
  intro n
  induction n with
  | zero =>
    intro first dst d _ h1 h2
    omega
  | succ n ih =>
    intro first dst d hs h1 h2
    have hf : first < src.length := by omega
    by_cases hd : d < dst.length
    · have hrec := ih (first + 1) (dst.set d src[first]) (d + 1) (by omega)
        (by simp; omega) (by simp; omega)
      simp only [std_copy_loop, List.getElem?_eq_getElem hf, store_of_lt _ hd, hrec]
    · simp only [std_copy_loop, List.getElem?_eq_getElem hf, store, if_neg hd]

theorem fill_ctor_spec (g n : Nat) (v : T) (hg : n ≤ g) :
    ∃ r, Vector.fill_ctor g n v = some { values := some r, v_size := n, v_capacity := n,
                                         ctor_initialized := true } ∧
      r.length = g ∧ ∀ k, k < n → r[k]? = some (some v) := by
  obtain ⟨r, hr, hlen, hk⟩ := std_fill_loop_spec (some v) n (List.replicate g none) 0
    (by simp; omega)
  refine ⟨r, ?_, by simpa using hlen, fun k hk1 => ?_⟩
  · simp [Vector.fill_ctor, std_fill, hr]
  · rw [hk k, if_pos (by omega)]

theorem init_list_ctor_spec (g : Nat) (i_list : List T) (hg : i_list.length ≤ g) :
    ∃ r, Vector.init_list_ctor g i_list =
        some { values := some r, v_size := i_list.length, v_capacity := i_list.length,
               ctor_initialized := true } ∧
      r.length = g ∧ ∀ k, k < i_list.length → r[k]? = (i_list.map some)[k]? := by
  obtain ⟨r, hr, hlen, hk⟩ := std_copy_loop_spec (i_list.map some) i_list.length 0
    (List.replicate g none) 0 (by simp) (by simp; omega)
  refine ⟨r, ?_, by simpa using hlen, fun k hk1 => ?_⟩
  · simp [Vector.init_list_ctor, std_copy, hr]
  · rw [hk k, if_pos (by omega)]
    simp

theorem copy_ctor_spec (g : Nat) (src : Vector T) (hlive : src.v_size ≤ src.cells.length)
    (hg : src.v_size ≤ g) :
    ∃ t, Vector.copy_ctor g src =
        some { values := some t, v_size := src.v_size, v_capacity := src.v_size,
               ctor_initialized := false } ∧
      t.length = g ∧ ∀ k, k < src.v_size → t[k]? = src.cells[k]? := by
  obtain ⟨t, ht, hlen, hk⟩ := std_copy_loop_spec src.cells src.v_size 0
    (List.replicate g none) 0 (by omega) (by simp; omega)
  refine ⟨t, ?_, by simpa using hlen, fun k hk1 => ?_⟩
  · simp [Vector.copy_ctor, std_copy, ht]
  · rw [hk k, if_pos (by omega)]
    simp

theorem copy_ctor_short_block (g : Nat) (src : Vector T)
    (hlive : src.v_size ≤ src.cells.length) (hg : g < src.v_size) :
    Vector.copy_ctor g src = none := by
  have h := std_copy_loop_short src.cells src.v_size 0 (List.replicate g none) 0
    (by omega) (Nat.zero_le _) (by simp; omega)
  simp [Vector.copy_ctor, std_copy, h]

theorem first_push_back_capacity (u : Vector T) (x : T) (n : Nat) (hs : u.v_size = n)
    (hc : u.v_capacity = n) (hl : n ≤ u.cells.length) (h1 : 1 ≤ n) :
    ∃ w, u.push_back x = some w ∧
      (u.ctor_initialized = true → w.capacity = 2 * n) ∧
      (u.ctor_initialized = false → n < 8 → w.capacity = n + 1) := by
  obtain ⟨w, hw, _, _, _, _, hcap⟩ := emplace_back_spec u x
    ⟨by omega, by omega⟩ (by omega)
  rw [if_pos (by omega)] at hcap
  refine ⟨w, hw, fun hf => ?_, fun hf h8 => ?_⟩
  · show w.v_capacity = 2 * n
    rw [hcap]
    unfold Vector.grown_capacity
    rw [hf, if_pos rfl]
    omega
  · show w.v_capacity = n + 1
    rw [hcap]
    unfold Vector.grown_capacity
    rw [hf, if_neg (by decide), if_neg (by omega), if_pos (by omega)]
    omega

/-- C3 evaluated on `Vector<int> a(3, 7); Vector<int> c(a);` and on the initializer list
`{7, 7, 7}`, for every size of block the constructors obtain that holds the three elements:
the first `push_back` on the fill-constructed and on the list-constructed container leaves
capacity `6 = 2 * 3`, the first `push_back` on the copy leaves capacity `4`. -/
theorem copy_then_push_back_capacity :
    (∀ g, 3 ≤ g →
      ((Vector.fill_ctor g 3 (7 : Nat)).bind fun a => a.push_back 1).map Vector.capacity
        = some 6) ∧
    (∀ g, 3 ≤ g →
      ((Vector.init_list_ctor g [(7 : Nat), 7, 7]).bind fun a => a.push_back 1).map
        Vector.capacity = some 6) ∧
    (∀ g1 g2, 3 ≤ g1 → 3 ≤ g2 →
      (((Vector.fill_ctor g1 3 (7 : Nat)).bind (Vector.copy_ctor g2)).bind fun c =>
        c.push_back 1).map Vector.capacity = some 4) ∧
    (∀ g1 g2, 3 ≤ g1 → 3 ≤ g2 →
      ((Vector.fill_ctor g1 3 (7 : Nat)).bind (Vector.copy_ctor g2)).map Vector.size
        = some 3) := by
  refine ⟨fun g hg => ?_, fun g hg => ?_, fun g1 g2 h1 h2 => ?_, fun g1 g2 h1 h2 => ?_⟩
  · obtain ⟨r, hr, hlen, _⟩ := fill_ctor_spec g 3 (7 : Nat) hg
    obtain ⟨w, hw, hc, _⟩ := first_push_back_capacity
      ({ values := some r, v_size := 3, v_capacity := 3, ctor_initialized := true } :
        Vector Nat) 1 3 rfl rfl (by show 3 ≤ r.length; omega) (by decide)
    rw [hr, Option.some_bind, hw, Option.map_some', hc rfl]
  · obtain ⟨r, hr, hlen, _⟩ := init_list_ctor_spec g [(7 : Nat), 7, 7] hg
    obtain ⟨w, hw, hc, _⟩ := first_push_back_capacity
      ({ values := some r, v_size := 3, v_capacity := 3, ctor_initialized := true } :
        Vector Nat) 1 3 rfl rfl (by show 3 ≤ r.length; omega) (by decide)
    rw [hr, Option.some_bind]
    show Option.map Vector.capacity (Vector.push_back
      ({ values := some r, v_size := 3, v_capacity := 3, ctor_initialized := true } :
        Vector Nat) 1) = some 6
    rw [hw, Option.map_some', hc rfl]
  · obtain ⟨r, hr, hlen, _⟩ := fill_ctor_spec g1 3 (7 : Nat) h1
    obtain ⟨t, ht, htl, _⟩ := copy_ctor_spec g2
      ({ values := some r, v_size := 3, v_capacity := 3, ctor_initialized := true } :
        Vector Nat) (by show 3 ≤ r.length; omega) h2
    obtain ⟨w, hw, _, hc⟩ := first_push_back_capacity
      ({ values := some t, v_size := 3, v_capacity := 3, ctor_initialized := false } :
        Vector Nat) 1 3 rfl rfl (by show 3 ≤ t.length; omega) (by decide)
    rw [hr, Option.some_bind, ht, Option.some_bind, hw, Option.map_some',
      hc rfl (by decide)]
  · obtain ⟨r, hr, hlen, _⟩ := fill_ctor_spec g1 3 (7 : Nat) h1
    obtain ⟨t, ht, htl, _⟩ := copy_ctor_spec g2
      ({ values := some r, v_size := 3, v_capacity := 3, ctor_initialized := true } :
        Vector Nat) (by show 3 ≤ r.length; omega) h2
    rw [hr, Option.some_bind, ht, Option.map_some']
    rfl

/-- C4 evaluated on `Vector<int> a; a.push_back(1); a.push_back(2); a.push_back(3);
Vector<int> c(a);`.  The block of `c` is sized by a read of `c.v_size` made before that
member is initialised.  When the read yields 0 (a block of no slot), 2, or any value below
`a.size()`, `std::copy` stores outside the block and the construction has no defined result.
When it yields 3 the copy compares equal to `a` and has capacity `a.size()`. -/
theorem copy_ctor_block_of_indeterminate_size :
    (Vector.default_ctor : Vector Nat).push_all [1, 2, 3] =
      some { values := some [some 1, some 2, some 3], v_size := 3, v_capacity := 3,
             ctor_initialized := false } ∧
    Vector.copy_ctor 0
      ({ values := some [some 1, some 2, some 3], v_size := 3, v_capacity := 3,
         ctor_initialized := false } : Vector Nat) = none ∧
    Vector.copy_ctor 2
      ({ values := some [some 1, some 2, some 3], v_size := 3, v_capacity := 3,
         ctor_initialized := false } : Vector Nat) = none ∧
    (∀ (g : Nat) (src : Vector Nat), src.v_size ≤ src.cells.length → g < src.v_size →
      Vector.copy_ctor g src = none) ∧
    (∃ cp, Vector.copy_ctor 3
        ({ values := some [some 1, some 2, some 3], v_size := 3, v_capacity := 3,
           ctor_initialized := false } : Vector Nat) = some cp ∧
      operator_eq cp { values := some [some 1, some 2, some 3], v_size := 3,
                       v_capacity := 3, ctor_initialized := false } = some true ∧
      cp.capacity = 3) :=
  ⟨by decide, by decide, by decide, fun g src h1 h2 => copy_ctor_short_block g src h1 h2,
   ⟨{ values := some [some 1, some 2, some 3], v_size := 3, v_capacity := 3,
      ctor_initialized := false }, by decide, by decide, by decide⟩⟩

/-! ## Insertion, erasure, checked access and resize -/

theorem eraseIdx_take_cons_drop {α : Type} (s : List α) (d : Nat) (x : α)
    (hd : d ≤ s.length) : (s.take d ++ [x] ++ s.drop d).eraseIdx d = s := by
  apply List.ext_getElem?
  intro k
  have hl : (s.take d).length = d := by simp [hd]
  have hl1 : (s.take d ++ [x]).length = d + 1 := by simp [hl]
  rw [List.getElem?_eraseIdx]
  by_cases h1 : k < d
  · rw [if_pos h1, List.getElem?_append, hl1, if_pos (by omega), List.getElem?_append, hl,
      if_pos h1, List.getElem?_take, if_pos h1]
  · rw [if_neg h1, List.getElem?_append, hl1, if_neg (by omega), List.getElem?_drop]
    have : d + (k + 1 - (d + 1)) = k := by omega
    rw [this]

theorem emplace_then_erase_restores (v : Vector T) (d : Nat) (x : T) (hwf : v.WF)
    (hd : d < v.v_size) :
    ∃ w u, v.emplace d x = some w ∧ w.erase d = some u ∧
      u.size = v.size ∧ u.elems = v.elems := by
  have hcap : d ≠ v.v_capacity := by
    have := hwf.1
    omega
  have hlive : v.v_size ≤ v.cells.length := Nat.le_trans hwf.1 hwf.2
  obtain ⟨w, hw, hwsz, hwel, hwwf⟩ := emplace_spec v d x hwf (by omega) hcap
  obtain ⟨u, hu, husz, huel, _, _⟩ := erase_spec w d (Nat.le_trans hwwf.1 hwwf.2)
    (by omega)
  refine ⟨w, u, hw, hu, ?_, ?_⟩
  · show u.v_size = v.v_size
    omega
  · rw [huel, hwel]
    exact eraseIdx_take_cons_drop v.elems d (some x) (by rw [elems_length v hlive]; omega)

/-- C6 evaluated on `Vector<int> v; v.push_back(1); v.push_back(2); v.push_back(3);
int x = 9; v.insert(v.cbegin() + 1, x); v.erase(v.cbegin() + 1);`.  The `insert` stores
`[1, 9, 2, 3]` through `emplace` and then reaches its closing brace without a `return`, so
the call, like every call of `insert`, has no defined result.  The same two steps made
through `emplace` and `erase`, which have their `return`, give back size 3 and `[1, 2, 3]`. -/
theorem insert_reaches_closing_brace :
    (Vector.default_ctor : Vector Nat).push_all [1, 2, 3] =
      some { values := some [some 1, some 2, some 3], v_size := 3, v_capacity := 3,
             ctor_initialized := false } ∧
    (({ values := some [some 1, some 2, some 3], v_size := 3, v_capacity := 3,
        ctor_initialized := false } : Vector Nat).emplace 1 9).map Vector.elems
      = some [some 1, some 9, some 2, some 3] ∧
    ({ values := some [some 1, some 2, some 3], v_size := 3, v_capacity := 3,
       ctor_initialized := false } : Vector Nat).insert 1 9 = none ∧
    (∀ (v : Vector Nat) (d x : Nat), v.insert d x = none) ∧
    ((({ values := some [some 1, some 2, some 3], v_size := 3, v_capacity := 3,
         ctor_initialized := false } : Vector Nat).emplace 1 9).bind fun w =>
        w.erase 1).map (fun u => (u.size, u.elems))
      = some (3, [some 1, some 2, some 3]) :=
  ⟨by decide, by decide, by decide, fun v d x => bind_flow_off_end (v.emplace d x),
   by decide⟩

/-- C7. For every `Vector` and every index `n`: `at(n)` throws the out-of-range error exactly
when `n >= size()`, and the error then carries `n` and `size()`; when `n < size()` (the live
range lying in the storage) it throws nothing and returns the element `operator[](n)`
returns; in every case the container is the same after the call. -/
theorem at_checks_against_size (v : Vector T) (n : Nat) :
    ((∃ a b, (v.at_ n).1 = .error (.out_of_range a b)) ↔ n ≥ v.size) ∧
    (n ≥ v.size → (v.at_ n).1 = .error (.out_of_range n v.size)) ∧
    (n < v.size → v.v_size ≤ v.cells.length →
      ∃ x, (v.at_ n).1 = .ok x ∧ v.index n = some x) ∧
    (v.at_ n).2 = v := by
  by_cases h : n ≥ v.v_size
  · have h1 : v.at_ n = (.error (.out_of_range n v.size), v) := by
      simp only [Vector.at_, if_pos h]
    refine ⟨⟨fun _ => h, fun _ => ⟨n, v.size, by rw [h1]⟩⟩, fun _ => by rw [h1], ?_,
      by rw [h1]⟩
    intro hlt
    exact absurd hlt (Nat.not_lt.2 h)
  · cases hx : v.cells[n]? with
    | none =>
      have h1 : v.at_ n = (.error .undefined_behaviour, v) := by
        simp only [Vector.at_, if_neg h, hx]
      refine ⟨⟨?_, fun hge => absurd hge h⟩, fun hge => absurd hge h, ?_, by rw [h1]⟩
      · rintro ⟨a, b, hab⟩
        rw [h1] at hab
        cases hab
      · intro _ hlive
        have hn : n < v.cells.length := by omega
        rw [List.getElem?_eq_getElem hn] at hx
        cases hx
    | some y =>
      have h1 : v.at_ n = (.ok y, v) := by
        simp only [Vector.at_, if_neg h, hx]
      refine ⟨⟨?_, fun hge => absurd hge h⟩, fun hge => absurd hge h, ?_, by rw [h1]⟩
      · rintro ⟨a, b, hab⟩
        rw [h1] at hab
        cases hab
      · intro _ _
        exact ⟨y, by rw [h1], hx⟩

/-- C7 on the container `[1, 2, 3]`: `at(1)` returns the element `operator[](1)` returns,
`at(3)` throws out-of-range with index 3 and size 3. -/
theorem at_checks_against_size_witness :
    (({ values := some [some 1, some 2, some 3], v_size := 3, v_capacity := 3,
        ctor_initialized := false } : Vector Nat).at_ 1).1 = .ok (some 2) ∧
    (({ values := some [some 1, some 2, some 3], v_size := 3, v_capacity := 3,
        ctor_initialized := false } : Vector Nat).at_ 3).1 = .error (.out_of_range 3 3) ∧
    ∃ x, (({ values := some [some 1, some 2, some 3], v_size := 3, v_capacity := 3,
             ctor_initialized := false } : Vector Nat).at_ 1).1 = .ok x ∧
      ({ values := some [some 1, some 2, some 3], v_size := 3, v_capacity := 3,
         ctor_initialized := false } : Vector Nat).index 1 = some x :=
  ⟨rfl, rfl,
   (at_checks_against_size
      ({ values := some [some 1, some 2, some 3], v_size := 3, v_capacity := 3,
         ctor_initialized := false } : Vector Nat) 1).2.2.1 (by decide) (by decide)⟩

/-- C8. For every `Vector` whose live range lies in its storage and every offset
`d < size()`: `erase(begin() + d)` returns, leaves `size()` one smaller, and leaves the
element sequence with exactly the element at index `d` removed, the elements before `d`
followed by the elements after `d`, each group in its order. -/
theorem erase_removes_index (v : Vector T) (d : Nat) (hlive : v.v_size ≤ v.cells.length)
    (hd : d < v.v_size) :
    ∃ w, v.erase d = some w ∧ w.size = v.size - 1 ∧ w.elems = v.elems.eraseIdx d ∧
      w.elems = v.elems.take d ++ v.elems.drop (d + 1) := by
  obtain ⟨w, hw, hsz, hel, _, _⟩ := erase_spec v d hlive hd
  exact ⟨w, hw, hsz, hel, by rw [hel, List.eraseIdx_eq_take_drop_succ]⟩

/-- C8 on the container `[1, 2, 3]` with `d = 1`: the result is `[1, 3]`, of size 2. -/
theorem erase_removes_index_witness :
    (({ values := some [some 1, some 2, some 3], v_size := 3, v_capacity := 3,
        ctor_initialized := false } : Vector Nat).erase 1).map
      (fun w => (w.size, w.elems)) = some (2, [some 1, some 3]) ∧
    ∃ w, ({ values := some [some 1, some 2, some 3], v_size := 3, v_capacity := 3,
            ctor_initialized := false } : Vector Nat).erase 1 = some w ∧
      w.size = 3 - 1 ∧
      w.elems = ([some 1, some 2, some 3] : List (Slot Nat)).eraseIdx 1 ∧
      w.elems = ([some 1, some 2, some 3] : List (Slot Nat)).take 1 ++
        ([some 1, some 2, some 3] : List (Slot Nat)).drop (1 + 1) :=
  ⟨by decide,
   erase_removes_index
    ({ values := some [some 1, some 2, some 3], v_size := 3, v_capacity := 3,
       ctor_initialized := false } : Vector Nat) 1 (by decide) (by decide)⟩

/-- C9 evaluated on `Vector<int> v(0, 7); v.emplace(v.begin(), 9);`, for every size of block
the constructor obtains: the container built by `Vector(0, 7)` satisfies the storage
invariant, the capacity `emplace_back` computes for it is `0`, below the size `1` the call
would leave, and `emplace_back`, reached from `emplace` (and from `insert` through
`emplace`), stores outside the block.  With one spare slot `emplace` gives the sequence of
the claim, `[1, 3]` becoming `[1, 9, 3]`. -/
theorem emplace_on_empty_filled_container :
    (∀ g, ∃ v, Vector.fill_ctor g 0 (7 : Nat) = some v ∧ v.WF ∧ v.size = 0 ∧
      v.grown_capacity = 0 ∧ v.emplace_back 9 = none ∧
      v.emplace 0 9 = none ∧ v.insert 0 9 = none) ∧
    (({ values := some [some 1, some 3, none], v_size := 2, v_capacity := 3,
        ctor_initialized := true } : Vector Nat).emplace 1 9).map Vector.elems
      = some [some 1, some 9, some 3] :=
  ⟨fun g =>
    ⟨{ values := some (List.replicate g none), v_size := 0, v_capacity := 0,
       ctor_initialized := true },
     rfl, ⟨Nat.le_refl 0, Nat.zero_le _⟩, rfl, rfl, rfl, rfl, rfl⟩,
   by decide⟩

/-- C10. For every `Vector` satisfying the storage invariant, every `n` and every value `x`:
`resize(n, x)` returns and leaves `size() == n`, `capacity() == max(old capacity, n)`, and an
element sequence equal to the first `n` old elements when `n <= old size`, and to the old
sequence followed by `n - old size` copies of `x` when `n > old size`. -/
theorem resize_with_value (v : Vector T) (n : Nat) (x : T) (hwf : v.WF) :
    ∃ w, v.resize n x = some w ∧ w.size = n ∧ w.capacity = max v.capacity n ∧
      (n ≤ v.size → w.elems = v.elems.take n) ∧
      (v.size < n → w.elems = v.elems ++ List.replicate (n - v.size) (some x)) := by
  obtain ⟨w, hw, hsz, hcap, hel, _⟩ := resize_spec v n x hwf
  refine ⟨w, hw, hsz, hcap, fun h => ?_, fun h => ?_⟩
  · have h1 : n ≤ v.v_size := h
    rw [hel, if_pos h1]
  · have h1 : ¬ n ≤ v.v_size := Nat.not_le.2 h
    rw [hel, if_neg h1]
    rfl

/-- C10 on `Vector(5, 0)`, its block holding the five elements, followed by
`resize(8, 7)`: the sequence is `[0, 0, 0, 0, 0, 7, 7, 7]`. -/
theorem resize_with_value_witness :
    Vector.fill_ctor 5 5 (0 : Nat) =
      some { values := some [some 0, some 0, some 0, some 0, some 0], v_size := 5,
             v_capacity := 5, ctor_initialized := true } ∧
    ((Vector.fill_ctor 5 5 (0 : Nat)).bind fun v => v.resize 8 7).map Vector.elems
      = some [some 0, some 0, some 0, some 0, some 0, some 7, some 7, some 7] ∧
    ∃ w, ({ values := some [some 0, some 0, some 0, some 0, some 0], v_size := 5,
            v_capacity := 5, ctor_initialized := true } : Vector Nat).resize 8 7 = some w ∧
      w.size = 8 ∧ w.capacity = max 5 8 ∧
      ((8 : Nat) ≤ 5 → w.elems = ([some 0, some 0, some 0, some 0, some 0] :
          List (Slot Nat)).take 8) ∧
      ((5 : Nat) < 8 → w.elems = [some 0, some 0, some 0, some 0, some 0] ++
          List.replicate (8 - 5) (some 7)) :=
  ⟨by decide, by decide,
   resize_with_value
    ({ values := some [some 0, some 0, some 0, some 0, some 0], v_size := 5,
       v_capacity := 5, ctor_initialized := true } : Vector Nat) 8 7 ⟨by decide, by decide⟩⟩

/-! ## Comparison -/

theorem std_equal_loop_spec {α : Type} [DecidableEq α] (a b : List α) :
    ∀ (n i : Nat), i + n ≤ a.length → i + n ≤ b.length →
      ∃ r, std_equal_loop a b n i i = some r ∧
        (r = true ↔ ∀ k, i ≤ k → k < i + n → a[k]? = b[k]?) := by
  intro n
  induction n with
  | zero =>
    intro i _ _
    exact ⟨true, rfl, fun _ k _ h2 => absurd h2 (by omega), fun _ => rfl⟩
  | succ n ih =>
    intro i ha hb
    have hia : i < a.length := by omega
    have hib : i < b.length := by omega
    by_cases he : a[i] = b[i]
    · obtain ⟨r, hr, hiff⟩ := ih (i + 1) (by omega) (by omega)
      refine ⟨r, ?_, ?_⟩
      · simp only [std_equal_loop, List.getElem?_eq_getElem hia,
          List.getElem?_eq_getElem hib, if_pos he, hr]
      · rw [hiff]
        constructor
        · intro h k h1 h2
          by_cases hk : k = i
          · subst hk
            rw [List.getElem?_eq_getElem hia, List.getElem?_eq_getElem hib, he]
          · exact h k (by omega) (by omega)
        · intro h k h1 h2
          exact h k (by omega) (by omega)
    · refine ⟨false, ?_, ?_⟩
      · simp only [std_equal_loop, List.getElem?_eq_getElem hia,
          List.getElem?_eq_getElem hib, if_neg he]
      · constructor
        · intro h
          cases h
        · intro h
          have := h i (Nat.le_refl i) (by omega)
          rw [List.getElem?_eq_getElem hia, List.getElem?_eq_getElem hib] at this
          exact absurd (Option.some.inj this) he

/-- C11. For every two `Vector`s `a` and `b` whose live ranges lie in their storage:
`a == b` returns, and it is true exactly when `a.size() == b.size()` and `a[i] == b[i]` for
every `i < a.size()`; replacing the capacity or the growth flag of either operand does not
change the result; and `a != b` is the negation of `a == b`. -/
theorem operator_eq_elementwise [DecidableEq T] (a b : Vector T)
    (ha : a.v_size ≤ a.cells.length) (hb : b.v_size ≤ b.cells.length) :
    ∃ r, operator_eq a b = some r ∧
      (r = true ↔ a.size = b.size ∧ ∀ i, i < a.size → a.index i = b.index i) ∧
      (∀ ca cb fa fb,
        operator_eq { a with v_capacity := ca, ctor_initialized := fa }
          { b with v_capacity := cb, ctor_initialized := fb } = some r) ∧
      operator_ne a b = some (!r) := by
  by_cases hs : a.v_size = b.v_size
  · obtain ⟨r, hr, hiff⟩ := std_equal_loop_spec a.cells b.cells a.v_size 0 (by omega)
      (by omega)
    have h1 : operator_eq a b = some r := by
      show (if a.v_size = b.v_size then std_equal_loop a.cells b.cells a.v_size 0 0
        else some false) = some r
      rw [if_pos hs, hr]
    refine ⟨r, h1, ?_, fun _ _ _ _ => h1, ?_⟩
    · rw [hiff]
      constructor
      · intro h
        refine ⟨hs, fun i hi => h i (Nat.zero_le i) ?_⟩
        have hi1 : i < a.v_size := hi
        omega
      · intro h k _ hk
        exact h.2 k (by show k < a.v_size; omega)
    · simp only [operator_ne, h1, Option.map_some']
  · have h1 : operator_eq a b = some false := by
      show (if a.v_size = b.v_size then std_equal_loop a.cells b.cells a.v_size 0 0
        else some false) = some false
      rw [if_neg hs]
    refine ⟨false, h1, ?_, fun _ _ _ _ => h1, ?_⟩
    · constructor
      · intro h
        cases h
      · intro h
        exact absurd h.1 hs
    · simp only [operator_ne, h1, Option.map_some']

/-- C11 on concrete operands: `[1, 2]` with capacity 2 and `[1, 2]` with capacity 4 and the
other flag compare equal, `[1, 2]` and `[1, 3]` do not. -/
theorem operator_eq_elementwise_witness :
    operator_eq
      ({ values := some [some 1, some 2], v_size := 2, v_capacity := 2,
         ctor_initialized := true } : Vector Nat)
      { values := some [some 1, some 2, none, none], v_size := 2, v_capacity := 4,
        ctor_initialized := false } = some true ∧
    operator_ne
      ({ values := some [some 1, some 2], v_size := 2, v_capacity := 2,
         ctor_initialized := true } : Vector Nat)
      { values := some [some 1, some 3], v_size := 2, v_capacity := 2,
        ctor_initialized := true } = some true ∧
    ∃ r, operator_eq
      ({ values := some [some 1, some 2], v_size := 2, v_capacity := 2,
         ctor_initialized := true } : Vector Nat)
      { values := some [some 1, some 3], v_size := 2, v_capacity := 2,
        ctor_initialized := true } = some r ∧
      operator_ne
        ({ values := some [some 1, some 2], v_size := 2, v_capacity := 2,
           ctor_initialized := true } : Vector Nat)
        { values := some [some 1, some 3], v_size := 2, v_capacity := 2,
          ctor_initialized := true } = some (!r) :=
  ⟨by decide, by decide,
   (operator_eq_elementwise
      ({ values := some [some 1, some 2], v_size := 2, v_capacity := 2,
         ctor_initialized := true } : Vector Nat)
      { values := some [some 1, some 3], v_size := 2, v_capacity := 2,
        ctor_initialized := true } (by decide) (by decide)).elim
      fun r h => ⟨r, h.1, h.2.2.2⟩⟩

/-! ## Fill insert, range erase and reserve: what the calls leave -/

theorem std_move_loop_spec {α : Type} :
    ∀ (n : Nat) (b : List α) (first d : Nat), d ≤ first → first + n ≤ b.length →
      ∃ r, std_move_loop n b first d = some r ∧ r.length = b.length ∧
        ∀ k, r[k]? = if d ≤ k ∧ k < d + n then b[first + (k - d)]? else b[k]? := by
  intro n
  induction n with
  | zero =>
    intro b first d _ _
    refine ⟨b, rfl, rfl, fun k => ?_⟩
    have : ¬ (d ≤ k ∧ k < d + 0) := by omega
    rw [if_neg this]
  | succ n ih =>
    intro b first d hdf hb
    have hf : first < b.length := by omega
    have hdl : d < b.length := by omega
    obtain ⟨r, hr, hlen, hk⟩ := ih (b.set d b[first]) (first + 1) (d + 1)
      (by omega) (by simp; omega)
    refine ⟨r, ?_, by simpa using hlen, fun k => ?_⟩
    · simp only [std_move_loop, List.getElem?_eq_getElem hf, store_of_lt _ hdl, hr]
    · rw [hk k]
      by_cases h1 : d + 1 ≤ k ∧ k < d + 1 + n
      · have h2 : d ≤ k ∧ k < d + (n + 1) := by omega
        have h3 : first + 1 + (k - (d + 1)) = first + (k - d) := by omega
        have h4 : d ≠ first + (k - d) := by omega
        rw [if_pos h1, if_pos h2, h3, List.getElem?_set, if_neg h4]
      · by_cases h4 : k = d
        · subst h4
          have h2 : k ≤ k ∧ k < k + (n + 1) := by omega
          rw [if_neg h1, if_pos h2]
          simp [List.getElem?_set, hdl, List.getElem?_eq_getElem hf]
        · have h2 : ¬ (d ≤ k ∧ k < d + (n + 1)) := by omega
          have h5 : d ≠ k := fun h => h4 h.symm
          rw [if_neg h1, if_neg h2]
          simp [List.getElem?_set, h5]

theorem take_insert_fill_shape {α : Type} {r cs : List α} {sz d n : Nat} (x : α)
    (hd : d ≤ sz) (hc : sz ≤ cs.length)
    (h : ∀ k, k < sz + n →
      r[k]? = if k < d then cs[k]? else if k < d + n then some x else cs[k - n]?) :
    r.take (sz + n) = (cs.take sz).take d ++ List.replicate n x ++ (cs.take sz).drop d := by
  apply List.ext_getElem?
  intro k
  have hl : ((cs.take sz).take d).length = d := by simp [hc, hd]
  have hl1 : ((cs.take sz).take d ++ List.replicate n x).length = d + n := by simp [hl]
  rw [List.getElem?_take, List.getElem?_append, hl1, List.getElem?_append, hl]
  by_cases h1 : k < d
  · rw [if_pos (by omega), if_pos (by omega), if_pos h1, h k (by omega), if_pos h1,
      List.getElem?_take, List.getElem?_take, if_pos h1, if_pos (by omega)]
  · by_cases h2 : k < d + n
    · rw [if_pos (by omega), if_pos h2, if_neg h1, h k (by omega), if_neg h1, if_pos h2,
        List.getElem?_replicate, if_pos (by omega)]
    · rw [if_neg h2, List.getElem?_drop, List.getElem?_take]
      have h5 : d + (k - (d + n)) = k - n := by omega
      rw [h5]
      by_cases h4 : k < sz + n
      · rw [if_pos h4, h k h4, if_neg h1, if_neg h2, if_pos (by omega)]
      · rw [if_neg h4, if_neg (by omega)]

theorem take_erase_range_shape {α : Type} {r cs : List α} {sz i j : Nat}
    (hij : i ≤ j) (hj : j ≤ sz) (hc : sz ≤ cs.length)
    (h : ∀ k, k < sz - (j - i) → r[k]? = if k < i then cs[k]? else cs[j + (k - i)]?) :
    r.take (sz - (j - i)) = (cs.take sz).take i ++ (cs.take sz).drop j := by
  apply List.ext_getElem?
  intro k
  have hl : ((cs.take sz).take i).length = i := by simp [hc]; omega
  rw [List.getElem?_take, List.getElem?_append, hl]
  by_cases h1 : k < i
  · rw [if_pos (by omega), if_pos h1, h k (by omega), if_pos h1,
      List.getElem?_take, List.getElem?_take, if_pos h1, if_pos (by omega)]
  · rw [if_neg h1, List.getElem?_drop, List.getElem?_take]
    by_cases h4 : k < sz - (j - i)
    · rw [if_pos h4, h k h4, if_neg h1, if_pos (by omega)]
    · rw [if_neg h4, if_neg (by omega)]

theorem insert_fill_spec (v : Vector T) (dist n : Nat) (x : T) (hwf : v.WF)
    (hd : dist ≤ v.v_size) :
    ∃ w, v.insert_fill dist n x = some w ∧ w.v_size = v.v_size + n ∧
      w.elems = v.elems.take dist ++ List.replicate n (some x) ++ v.elems.drop dist ∧
      w.v_capacity = (if v.v_size + n > v.v_capacity then v.v_capacity + n
                      else v.v_capacity) ∧
      w.WF ∧ w.ctor_initialized = v.ctor_initialized := by
  obtain ⟨hsc, hcl⟩ := hwf
  have key : ∀ (cap : Nat) (b : List (Slot T)), v.v_size + n ≤ cap → cap ≤ b.length →
      (∀ k, k < v.v_size → b[k]? = v.cells[k]?) →
      ∃ b1, ((std_move_backward b dist v.v_size (v.v_size + n)).bind fun b2 =>
          (std_fill b2 dist (dist + n) (some x)).map fun b3 =>
            ({ values := some b3, v_size := v.v_size + n, v_capacity := cap,
               ctor_initialized := v.ctor_initialized } : Vector T)) =
        some { values := some b1, v_size := v.v_size + n, v_capacity := cap,
               ctor_initialized := v.ctor_initialized } ∧
        b1.length = b.length ∧
        b1.take (v.v_size + n) =
          v.elems.take dist ++ List.replicate n (some x) ++ v.elems.drop dist := by
    intro cap b hc hb hag
    obtain ⟨r, hr, hrl, hrk⟩ := std_move_backward_loop_spec n (v.v_size - dist) b v.v_size
      (by omega) (by omega)
    obtain ⟨r2, hr2, hrl2, hrk2⟩ := std_fill_loop_spec (some x) (dist + n - dist) r dist
      (by omega)
    refine ⟨r2, ?_, by omega, ?_⟩
    · simp only [std_move_backward, if_neg (show ¬ v.v_size < dist by omega), hr,
        Option.some_bind, std_fill, if_neg (show ¬ dist + n < dist by omega), hr2,
        Option.map_some']
    · apply take_insert_fill_shape (some x) hd (by omega)
      intro k hk
      rw [hrk2 k]
      by_cases h1 : k < dist
      · rw [if_neg (by omega), if_pos h1, hrk k, if_neg (by omega)]
        exact hag k (by omega)
      · by_cases h2 : k < dist + n
        · rw [if_pos (by omega), if_neg h1, if_pos h2]
        · rw [if_neg (by omega), if_neg h1, if_neg h2, hrk k, if_pos (by omega)]
          exact hag (k - n) (by omega)
  by_cases hgrow : v.v_size + n > v.v_capacity
  · obtain ⟨t, ht, hlen, hk⟩ := reallocate_spec { v with v_capacity := v.v_capacity + n }
      (by show v.v_size ≤ v.cells.length; omega)
      (by show v.v_size ≤ v.v_capacity + n; omega)
    have hlen1 : t.length = v.v_capacity + n := hlen
    obtain ⟨b1, hb1, hl1, hs1⟩ := key (v.v_capacity + n) t (by omega) (by omega) hk
    refine ⟨{ values := some b1, v_size := v.v_size + n, v_capacity := v.v_capacity + n,
              ctor_initialized := v.ctor_initialized }, ?_, rfl, hs1, ?_, ?_, rfl⟩
    · simp only [Vector.insert_fill, if_pos hgrow, ht, Option.some_bind]
      exact hb1
    · rw [if_pos hgrow]
    · constructor
      · show v.v_size + n ≤ v.v_capacity + n
        omega
      · show v.v_capacity + n ≤ b1.length
        omega
  · obtain ⟨b1, hb1, hl1, hs1⟩ := key v.v_capacity v.cells (by omega) hcl (fun _ _ => rfl)
    refine ⟨{ values := some b1, v_size := v.v_size + n, v_capacity := v.v_capacity,
              ctor_initialized := v.ctor_initialized }, ?_, rfl, hs1, ?_, ?_, rfl⟩
    · simp only [Vector.insert_fill, if_neg hgrow, Option.some_bind]
      exact hb1
    · rw [if_neg hgrow]
    · constructor
      · show v.v_size + n ≤ v.v_capacity
        omega
      · show v.v_capacity ≤ b1.length
        omega

theorem erase_range_statements_spec (v : Vector T) (i j : Nat)
    (hlive : v.v_size ≤ v.cells.length) (hij : i ≤ j) (hj : j ≤ v.v_size) :
    ∃ w, v.erase_range_statements i j = some w ∧ w.v_size = v.v_size - (j - i) ∧
      w.elems = v.elems.take i ++ v.elems.drop j ∧ w.v_capacity = v.v_capacity ∧
      w.cells.length = v.cells.length ∧ w.ctor_initialized = v.ctor_initialized := by
  obtain ⟨r, hr, hrl, hrk⟩ := std_move_loop_spec (v.v_size - j) v.cells j i hij (by omega)
  refine ⟨{ v with values := some r, v_size := v.v_size - (j - i) }, ?_, rfl, ?_, rfl, hrl,
    rfl⟩
  · simp only [Vector.erase_range_statements, if_neg (show ¬ j < i by omega), std_move,
      if_neg (show ¬ v.v_size < j by omega), hr, Option.map_some']
  · show r.take (v.v_size - (j - i)) = (v.cells.take v.v_size).take i ++
      (v.cells.take v.v_size).drop j
    apply take_erase_range_shape hij hj hlive
    intro k hk
    rw [hrk k]
    by_cases h1 : k < i
    · rw [if_neg (by omega), if_pos h1]
    · rw [if_pos (by omega), if_neg h1]

theorem reserve_spec (v : Vector T) (n : Nat) (hwf : v.WF) :
    ∃ w, v.reserve n = some w ∧
      w.v_capacity = (if n > v.v_capacity then n else v.v_capacity) ∧
      w.v_size = v.v_size ∧ w.elems = v.elems ∧ w.WF ∧
      w.ctor_initialized = v.ctor_initialized := by
  obtain ⟨hsc, hcl⟩ := hwf
  by_cases hgrow : n > v.v_capacity
  · obtain ⟨t, ht, hlen, hk⟩ := reallocate_spec { v with v_capacity := n }
      (by show v.v_size ≤ v.cells.length; omega) (by show v.v_size ≤ n; omega)
    have hlen1 : t.length = n := hlen
    refine ⟨{ v with v_capacity := n, values := some t }, ?_, ?_, rfl, ?_, ?_, rfl⟩
    · simp only [Vector.reserve, if_pos hgrow, ht]
    · rw [if_pos hgrow]
    · show t.take v.v_size = v.cells.take v.v_size
      exact take_eq_of_agree hk
    · constructor
      · show v.v_size ≤ n
        omega
      · show n ≤ t.length
        omega
  · refine ⟨v, ?_, ?_, rfl, rfl, ⟨hsc, hcl⟩, rfl⟩
    · simp only [Vector.reserve, if_neg hgrow]
    · rw [if_neg hgrow]

/-! ## The capacity invariant, the insert overloads, range erase and reserve -/

/-- C12 evaluated on `Vector<int> v(0, 7); v.push_back(1);`, on
`Vector<int> u(1, 7); u.erase(u.begin()); u.push_back(1);` and on
`Vector<int> t; t.resize(1, 7); t.erase(t.begin()); t.push_back(1);`, for every size of
block the constructors obtain that holds their elements.  Each container satisfies
`size <= capacity` before the `push_back` (size 0, capacity 0, growth flag set); the capacity
`emplace_back` computes for it is `0`, below the size `1` the call is to leave, and the
store of the new element falls outside the block. -/
theorem push_back_on_empty_filled_container :
    (∀ g, ∃ v, Vector.fill_ctor g 0 (7 : Nat) = some v ∧ v.size ≤ v.capacity ∧ v.WF ∧
      v.grown_capacity = 0 ∧ v.size + 1 > v.grown_capacity ∧
      v.emplace_back 1 = none ∧ v.push_back 1 = none) ∧
    (∀ g, 1 ≤ g → ∃ u, ((Vector.fill_ctor g 1 (7 : Nat)).bind fun a => a.erase 0) = some u ∧
      u.size = 0 ∧ u.capacity = 0 ∧ u.ctor_initialized = true ∧ u.WF ∧
      u.grown_capacity = 0 ∧ u.push_back 1 = none) ∧
    (∃ t, (((Vector.default_ctor : Vector Nat).resize 1 7).bind fun a => a.erase 0)
        = some t ∧
      t.size = 0 ∧ t.capacity = 0 ∧ t.ctor_initialized = true ∧ t.WF ∧
      t.grown_capacity = 0 ∧ t.push_back 1 = none) := by
  refine ⟨fun g => ?_, fun g hg => ?_, ?_⟩
  · exact ⟨{ values := some (List.replicate g none), v_size := 0, v_capacity := 0,
             ctor_initialized := true },
      rfl, Nat.le_refl 0, ⟨Nat.le_refl 0, Nat.zero_le _⟩, rfl, Nat.one_pos, rfl, rfl⟩
  · obtain ⟨r, hr, _, _⟩ := fill_ctor_spec g 1 (7 : Nat) hg
    refine ⟨{ values := some r, v_size := 0, v_capacity := 0, ctor_initialized := true },
      ?_, rfl, rfl, rfl, ⟨Nat.le_refl 0, Nat.zero_le _⟩, rfl, rfl⟩
    rw [hr]
    rfl
  · exact ⟨{ values := some [some 7], v_size := 0, v_capacity := 0,
             ctor_initialized := true },
      by decide, rfl, rfl, rfl, ⟨by decide, by decide⟩, rfl, by decide⟩

/-- C13 evaluated on concrete containers.  With spare capacity (`[1, 2, 3]`, capacity 6) the
range insert of `[9]` at offset 1 leaves `size() == 3` and the sequence `[1, 9, 2]`; on a
full container (`[1, 2, 3]`, capacity 3) the range insert of `[9]` at offset 0 leaves size 4
and the sequence `[9, 2, 3, 1]`.  The claim holds where the tail is as long as the range
(`[8, 9]` at offset 1 of the full container gives `[1, 8, 9, 2, 3]`), and an empty range
leaves the container as it was. -/
theorem insert_range_on_concrete_containers :
    (({ values := some [some 1, some 2, some 3, none, none, none], v_size := 3,
        v_capacity := 6, ctor_initialized := false } : Vector Nat).insert_range 1 [9]).map
      (fun w => (w.size, w.elems)) = some (3, [some 1, some 9, some 2]) ∧
    (({ values := some [some 1, some 2, some 3], v_size := 3, v_capacity := 3,
        ctor_initialized := true } : Vector Nat).insert_range 0 [9]).map
      (fun w => (w.size, w.elems)) = some (4, [some 9, some 2, some 3, some 1]) ∧
    (({ values := some [some 1, some 2, some 3], v_size := 3, v_capacity := 3,
        ctor_initialized := true } : Vector Nat).insert_range 1 [8, 9]).map
      (fun w => (w.size, w.elems)) = some (5, [some 1, some 8, some 9, some 2, some 3]) ∧
    (∀ (v : Vector Nat) (ps : Nat), v.insert_range ps [] = some v) :=
  ⟨by decide, by decide, by decide, fun _ _ => rfl⟩

/-- C14. For every `Vector` satisfying the storage invariant, every offset `d <= size()`,
every count `n` and every value `x`: both fill overloads `insert(begin() + d, n, x)` return
the same container, of size `size() + n`, with the element sequence (first `d` elements)
followed by `n` copies of `x` followed by the remaining elements; the capacity is the old
capacity plus `n` when `size() + n` exceeded the old capacity and the old capacity otherwise,
and `capacity() >= size()` afterwards. -/
theorem insert_fill_both_overloads (v : Vector T) (d n : Nat) (x : T) (hwf : v.WF)
    (hd : d ≤ v.v_size) :
    ∃ w, v.insert_fill d n x = some w ∧ v.insert_fill_const d n x = some w ∧
      w.size = v.size + n ∧
      w.elems = v.elems.take d ++ List.replicate n (some x) ++ v.elems.drop d ∧
      (v.size + n > v.capacity → w.capacity = v.capacity + n) ∧
      (v.size + n ≤ v.capacity → w.capacity = v.capacity) ∧
      w.capacity ≥ w.size := by
  obtain ⟨w, hw, hsz, hel, hcap, hwf1, _⟩ := insert_fill_spec v d n x hwf hd
  refine ⟨w, hw, hw, hsz, hel, fun h => ?_, fun h => ?_, hwf1.1⟩
  · have h1 : v.v_size + n > v.v_capacity := h
    rw [if_pos h1] at hcap
    exact hcap
  · have h1 : ¬ v.v_size + n > v.v_capacity := Nat.not_lt.2 h
    rw [if_neg h1] at hcap
    exact hcap

/-- C14 on the full container `[1, 2, 3]`: two copies of `9` inserted at offset 1 give
`[1, 9, 9, 2, 3]` with capacity `3 + 2`. -/
theorem insert_fill_both_overloads_witness :
    (({ values := some [some 1, some 2, some 3], v_size := 3, v_capacity := 3,
        ctor_initialized := true } : Vector Nat).insert_fill 1 2 9).map
      (fun w => (w.elems, w.capacity))
      = some ([some 1, some 9, some 9, some 2, some 3], 5) ∧
    ∃ w, ({ values := some [some 1, some 2, some 3], v_size := 3, v_capacity := 3,
            ctor_initialized := true } : Vector Nat).insert_fill 1 2 9 = some w ∧
      ({ values := some [some 1, some 2, some 3], v_size := 3, v_capacity := 3,
         ctor_initialized := true } : Vector Nat).insert_fill_const 1 2 9 = some w ∧
      w.size = 3 + 2 ∧ w.capacity ≥ w.size :=
  ⟨by decide,
   (insert_fill_both_overloads
      ({ values := some [some 1, some 2, some 3], v_size := 3, v_capacity := 3,
         ctor_initialized := true } : Vector Nat) 1 2 9 ⟨by decide, by decide⟩
      (by decide)).elim
      fun w h => ⟨w, h.1, h.2.1, h.2.2.1, h.2.2.2.2.2.2⟩⟩

/-- C15 evaluated on `Vector<int> v;` with `push_back(1)` to `push_back(5)`, then
`v.erase(v.begin() + 1, v.begin() + 3);`.  The statements of the function leave size 3, the
sequence `[1, 4, 5]` and capacity 5, as the claim says (and so for every container and every
`i <= j <= size()`); the function then reaches its closing brace without the `return` its
return type `iterator` requires, so the call, like every call of it, has no defined
result. -/
theorem erase_range_reaches_closing_brace :
    (Vector.default_ctor : Vector Nat).push_all [1, 2, 3, 4, 5] =
      some { values := some [some 1, some 2, some 3, some 4, some 5], v_size := 5,
             v_capacity := 5, ctor_initialized := false } ∧
    (({ values := some [some 1, some 2, some 3, some 4, some 5], v_size := 5,
        v_capacity := 5, ctor_initialized := false } :
        Vector Nat).erase_range_statements 1 3).map
      (fun w => (w.size, w.elems, w.capacity)) = some (3, [some 1, some 4, some 5], 5) ∧
    ({ values := some [some 1, some 2, some 3, some 4, some 5], v_size := 5,
       v_capacity := 5, ctor_initialized := false } : Vector Nat).erase_range 1 3 = none ∧
    (∀ (v : Vector Nat) (i j : Nat), v.erase_range i j = none) ∧
    (∀ (v : Vector Nat) (i j : Nat), v.v_size ≤ v.cells.length → i ≤ j → j ≤ v.v_size →
      ∃ w, v.erase_range_statements i j = some w ∧ w.size = v.size - (j - i) ∧
        w.elems = v.elems.take i ++ v.elems.drop j ∧ w.capacity = v.capacity) :=
  ⟨by decide, by decide, by decide,
   fun v i j => bind_flow_off_end (v.erase_range_statements i j),
   fun v i j hlive hij hj =>
    (erase_range_statements_spec v i j hlive hij hj).elim
      fun w h => ⟨w, h.1, h.2.1, h.2.2.1, h.2.2.2.1⟩⟩

/-- C16. For every `Vector` satisfying the storage invariant and every `n`: `reserve(n)`
returns, leaves `capacity() == n` when `n` exceeded the old capacity and the old capacity
otherwise, and leaves `size()` and the element sequence as they were. -/
theorem reserve_grows_only (v : Vector T) (n : Nat) (hwf : v.WF) :
    ∃ w, v.reserve n = some w ∧ (n > v.capacity → w.capacity = n) ∧
      (n ≤ v.capacity → w.capacity = v.capacity) ∧ w.capacity ≥ v.capacity ∧
      w.size = v.size ∧ w.elems = v.elems := by
  obtain ⟨w, hw, hcap, hsz, hel, _, _⟩ := reserve_spec v n hwf
  have hcap1 : w.capacity = if n > v.v_capacity then n else v.v_capacity := hcap
  refine ⟨w, hw, fun h => ?_, fun h => ?_, ?_, hsz, hel⟩
  · have h1 : n > v.v_capacity := h
    rw [hcap1, if_pos h1]
  · have h1 : ¬ n > v.v_capacity := Nat.not_lt.2 h
    rw [hcap1, if_neg h1]
    rfl
  · rw [hcap1]
    show (if n > v.v_capacity then n else v.v_capacity) ≥ v.v_capacity
    split <;> omega

/-- C16 on the container `[1, 2, 3]` of capacity 3: `reserve(10)` gives capacity 10 and
keeps the three elements, `reserve(2)` changes nothing. -/
theorem reserve_grows_only_witness :
    (({ values := some [some 1, some 2, some 3], v_size := 3, v_capacity := 3,
        ctor_initialized := false } : Vector Nat).reserve 10).map
      (fun w => (w.size, w.elems, w.capacity)) = some (3, [some 1, some 2, some 3], 10) ∧
    ({ values := some [some 1, some 2, some 3], v_size := 3, v_capacity := 3,
       ctor_initialized := false } : Vector Nat).reserve 2 =
      some { values := some [some 1, some 2, some 3], v_size := 3, v_capacity := 3,
             ctor_initialized := false } ∧
    ∃ w, ({ values := some [some 1, some 2, some 3], v_size := 3, v_capacity := 3,
            ctor_initialized := false } : Vector Nat).reserve 10 = some w ∧
      w.capacity = 10 ∧ w.size = 3 ∧ w.elems = [some 1, some 2, some 3] :=
  ⟨by decide, by decide,
   (reserve_grows_only
      ({ values := some [some 1, some 2, some 3], v_size := 3, v_capacity := 3,
         ctor_initialized := false } : Vector Nat) 10 ⟨by decide, by decide⟩).elim
      fun w h => ⟨w, h.1, h.2.1 (by decide), h.2.2.2.2.1, h.2.2.2.2.2⟩⟩

/-! ## Capacity after a single erase, and erase at or past the end -/

theorem erase_inc_loop_min (sz : Nat) :
    ∀ (fuel inc : Nat), inc ≤ erase_inc_loop sz fuel inc ∧
      ∀ m, inc ≤ m → sz ≤ 2 ^ m → erase_inc_loop sz fuel inc ≤ m := by
  intro fuel
  induction fuel with
  | zero =>
    intro inc
    exact ⟨Nat.le_refl _, fun m hm _ => hm⟩
  | succ fuel ih =>
    intro inc
    simp only [erase_inc_loop]
    by_cases h : sz > 2 ^ inc
    · rw [if_pos h]
      obtain ⟨h1, h2⟩ := ih (inc + 1)
      refine ⟨by omega, fun m hm hsz => h2 m ?_ hsz⟩
      by_cases he : m = inc
      · subst he
        omega
      · omega
    · rw [if_neg h]
      exact ⟨Nat.le_refl _, fun m hm _ => hm⟩

theorem erase_fields (v w : Vector T) (dist : Nat) (h : v.erase dist = some w) :
    w.v_size = (if v.v_size ≠ 0 then v.v_size - 1 else v.v_size) ∧
    w.v_capacity =
      (if (if v.v_size ≠ 0 then v.v_size - 1 else v.v_size) = 0 then 0
       else 2 ^ erase_inc_loop (if v.v_size ≠ 0 then v.v_size - 1 else v.v_size)
              (if v.v_size ≠ 0 then v.v_size - 1 else v.v_size) 2) ∧
    w.ctor_initialized = v.ctor_initialized := by
  unfold Vector.erase at h
  dsimp only at h
  generalize (if v.v_size ≠ 0 then v.v_size - 1 else v.v_size) = sz at h ⊢
  generalize (if sz = 0 then 0 else 2 ^ erase_inc_loop sz sz 2) = cap at h ⊢
  by_cases hc : cap ≠ 0
  · rw [if_pos hc] at h
    obtain ⟨temp, _, hw⟩ := Option.map_eq_some'.1 h
    subst hw
    exact ⟨rfl, rfl, rfl⟩
  · rw [if_neg hc] at h
    cases h
    exact ⟨rfl, rfl, rfl⟩

/-- C17 as stated fails on `[1, 2]`: `erase(begin())` leaves size 1 and capacity 4, and 4 is
not the smallest power of two that is at least 1. -/
theorem erase_capacity_not_smallest_power :
    ∃ w, ({ values := some [some 1, some 2], v_size := 2, v_capacity := 2,
            ctor_initialized := false } : Vector Nat).erase 0 = some w ∧
      w.size = 1 ∧ w.capacity = 4 ∧
      ¬ (∃ j, w.capacity = 2 ^ j ∧ w.size ≤ 2 ^ j ∧ ∀ i, w.size ≤ 2 ^ i → 2 ^ j ≤ 2 ^ i) := by
  refine ⟨{ values := some [some 2, none, none, none], v_size := 1, v_capacity := 4,
            ctor_initialized := false }, by decide, rfl, rfl, ?_⟩
  rintro ⟨j, hj, _, hmin⟩
  have h1 : (4 : Nat) = 2 ^ j := hj
  have h2 : 2 ^ j ≤ 2 ^ 0 := hmin 0 (by decide)
  omega

/-- C17, amended. For every `Vector` whose live range lies in its storage and every offset
`d < size()`: after `erase(begin() + d)` the capacity is 0 when the new size is 0, and
otherwise it is `2 ^ inc` for the smallest exponent `inc >= 2` with `new size <= 2 ^ inc`:
the smallest power of two that is at least 4 and at least the new size. -/
theorem erase_capacity_power_from_four (v : Vector T) (d : Nat)
    (hlive : v.v_size ≤ v.cells.length) (hd : d < v.v_size) :
    ∃ w, v.erase d = some w ∧ w.size = v.size - 1 ∧
      (w.size = 0 → w.capacity = 0) ∧
      (w.size ≠ 0 → ∃ inc, 2 ≤ inc ∧ w.capacity = 2 ^ inc ∧ w.size ≤ 2 ^ inc ∧
        ∀ m, 2 ≤ m → w.size ≤ 2 ^ m → inc ≤ m) := by
  obtain ⟨w, hw, hsz, _, _, _⟩ := erase_spec v d hlive hd
  obtain ⟨hsz1, hcap, _⟩ := erase_fields v w d hw
  have hnz : v.v_size ≠ 0 := by omega
  rw [if_pos hnz, ← hsz] at hcap
  refine ⟨w, hw, hsz, fun h0 => ?_, fun hne => ?_⟩
  · have h1 : w.v_size = 0 := h0
    show w.v_capacity = 0
    rw [hcap, if_pos h1]
  · have h1 : ¬ w.v_size = 0 := hne
    rw [if_neg h1] at hcap
    obtain ⟨hlo, hmin⟩ := erase_inc_loop_min w.v_size w.v_size 2
    exact ⟨erase_inc_loop w.v_size w.v_size 2, hlo, hcap,
      erase_inc_loop_ge w.v_size w.v_size 2 (by omega), hmin⟩

/-- The amended C17 on `[1, 2]` and on `[1, 2, 3, 4, 5, 6]`: the capacities after erasing the
first element are 4 and 8. -/
theorem erase_capacity_power_from_four_witness :
    (({ values := some [some 1, some 2], v_size := 2, v_capacity := 2,
        ctor_initialized := false } : Vector Nat).erase 0).map Vector.capacity = some 4 ∧
    (({ values := some [some 1, some 2, some 3, some 4, some 5, some 6], v_size := 6,
        v_capacity := 6, ctor_initialized := false } : Vector Nat).erase 0).map
      Vector.capacity = some 8 ∧
    ∃ w, ({ values := some [some 1, some 2], v_size := 2, v_capacity := 2,
            ctor_initialized := false } : Vector Nat).erase 0 = some w ∧ w.size = 2 - 1 ∧
      (w.size = 0 → w.capacity = 0) ∧
      (w.size ≠ 0 → ∃ inc, 2 ≤ inc ∧ w.capacity = 2 ^ inc ∧ w.size ≤ 2 ^ inc ∧
        ∀ m, 2 ≤ m → w.size ≤ 2 ^ m → inc ≤ m) :=
  ⟨by decide, by decide,
   erase_capacity_power_from_four
    ({ values := some [some 1, some 2], v_size := 2, v_capacity := 2,
       ctor_initialized := false } : Vector Nat) 0 (by decide) (by decide)⟩

/-- C18 evaluated on `Vector<int> v(5); v.erase(pos);` for every position: the call returns,
size and storage stay as they were, and `capacity()` goes from 5 to 0.  On a
default-constructed container (capacity 0) the call changes nothing. -/
theorem erase_on_empty_reserved_container :
    (Vector.size_ctor 5 : Vector Nat).capacity = 5 ∧
    (∀ d, (Vector.size_ctor 5 : Vector Nat).erase d =
      some { values := some [none, none, none, none, none], v_size := 0, v_capacity := 0,
             ctor_initialized := false }) ∧
    (∀ d, (Vector.default_ctor : Vector Nat).erase d = some Vector.default_ctor) :=
  ⟨rfl, fun _ => rfl, fun _ => rfl⟩

/-- C20 evaluated on the five-element container `[1, 2, 3, 4, 5]` with `erase(end())`: the
new size 4 gives capacity `2 ^ 2 = 4`, the copy loop runs for `j = 0, ..., 4` without meeting
the erased offset, and its fifth store falls outside the four-slot block.  On `[1, 2, 3]` the
same call gives `[1, 2]`, as the claim says. -/
theorem erase_at_end_of_five_elements :
    ({ values := some [some 1, some 2, some 3, some 4, some 5], v_size := 5,
       v_capacity := 5, ctor_initialized := false } : Vector Nat).WF ∧
    ({ values := some [some 1, some 2, some 3, some 4, some 5], v_size := 5,
       v_capacity := 5, ctor_initialized := false } : Vector Nat).erase 5 = none ∧
    erase_inc_loop 4 4 2 = 2 ∧
    erase_copy_loop [some 1, some 2, some 3, some 4, some 5] 5 4 0 0
        (List.replicate 4 (none : Slot Nat)) = some [some 1, some 2, some 3, some 4] ∧
    erase_copy_loop [some 1, some 2, some 3, some 4, some 5] 5 1 4 4
        [some 1, some 2, some 3, some 4] = none ∧
    (({ values := some [some 1, some 2, some 3], v_size := 3, v_capacity := 3,
        ctor_initialized := false } : Vector Nat).erase 3).map
      (fun w => (w.size, w.elems)) = some (2, [some 1, some 2]) :=
  ⟨⟨by decide, by decide⟩, by decide, by decide, by decide, by decide, by decide⟩

/-! ## The growth flag under the member swap -/

/-- C19 evaluated on the swap a program can call, the member `swap`
(src/Vector.h:565-573): it exchanges `values`, `v_size` and `v_capacity` and leaves the
`ctor_initialized` flag of each container where it was; so for every `1 <= n < 8`, a
default-constructed container that has swapped with `Vector(n, v)` (its block holding the
`n` elements) has capacity `n + 1` after its first `push_back`, where `Vector(n, v)` itself
gets `2 * n`; at `n = 1` the two values are both 2. -/
theorem member_swap_leaves_growth_flag :
    (∀ (a b : Vector Nat),
      (a.swap b).1 = { values := b.values, v_size := b.v_size, v_capacity := b.v_capacity,
                       ctor_initialized := a.ctor_initialized } ∧
      (a.swap b).2 = { values := a.values, v_size := a.v_size, v_capacity := a.v_capacity,
                       ctor_initialized := b.ctor_initialized }) ∧
    (∀ (n g v x : Nat), 1 ≤ n → n < 8 → n ≤ g →
      ∃ f w u, Vector.fill_ctor g n v = some f ∧ f.ctor_initialized = true ∧
        ((Vector.default_ctor : Vector Nat).swap f).1.push_back x = some w ∧
        w.capacity = n + 1 ∧ f.push_back x = some u ∧ u.capacity = 2 * n) ∧
    ((Vector.fill_ctor 1 1 (7 : Nat)).bind fun f =>
        ((Vector.default_ctor : Vector Nat).swap f).1.push_back 1).map Vector.capacity
      = some 2 := by
  refine ⟨fun a b => ⟨rfl, rfl⟩, fun n g v x h1 h8 hg => ?_, by decide⟩
  obtain ⟨r, hr, hlen, _⟩ := fill_ctor_spec g n v hg
  obtain ⟨w, hw, _, hc⟩ := first_push_back_capacity
    ({ values := some r, v_size := n, v_capacity := n, ctor_initialized := false } :
      Vector Nat) x n rfl rfl (by show n ≤ r.length; omega) h1
  obtain ⟨u, hu, hcu, _⟩ := first_push_back_capacity
    ({ values := some r, v_size := n, v_capacity := n, ctor_initialized := true } :
      Vector Nat) x n rfl rfl (by show n ≤ r.length; omega) h1
  exact ⟨_, w, u, hr, rfl, hw, hc rfl h8, hu, hcu rfl⟩

end StlVector
